import Mathlib

/-!
Verification of the piano-roll encode/decode core of `app/utils/audio_converter.py`:
`midi_to_pianoroll_tensor` (note events → time/pitch grid) and
`pianoroll_tensor_to_midi` (grid → note events).

The embedding is shallow: Python floats become rationals (`ℚ`), numpy arrays
become a `Grid` structure carrying its shape and a cell function, the MIDI note
objects become the `PNote` structure, and the Python `dict` used to track
active notes becomes an insertion-ordered association list (Python dicts
preserve insertion order; keys are inserted only when absent and removed by
`pop`, which the association-list operations reproduce exactly).
Fallible operations return `Option` (`None` in the source).
-/

/-- Python 3 `round` on a real number: round half to even (banker's rounding). -/
def pyRound (x : ℚ) : ℤ :=
  if x - ⌊x⌋ < 1/2 then ⌊x⌋
  else if 1/2 < x - ⌊x⌋ then ⌊x⌋ + 1
  else if 2 ∣ ⌊x⌋ then ⌊x⌋ else ⌊x⌋ + 1

/-- Python `int()` applied to a real number: truncation toward zero. -/
def pyInt (x : ℚ) : ℤ :=
  if x < 0 then ⌈x⌉ else ⌊x⌋

/-- A `pretty_midi.Note`: velocity, pitch, start time and end time (seconds).
`stop` is the `end` attribute of the source (a Lean keyword). -/
structure PNote where
  velocity : ℤ
  pitch : ℤ
  start : ℚ
  stop : ℚ
deriving DecidableEq

/-- The numpy piano-roll array of shape `(num_time_steps, num_pitches)`.
`val t p` is the cell at time step `t`, pitch index `p`; cells outside the
shape are never read and are `0` for grids built by the encoder. -/
structure Grid where
  numTimeSteps : ℕ
  numPitches : ℕ
  val : ℕ → ℕ → ℚ

/-- `pretty_midi.PrettyMIDI.get_end_time` restricted to one instrument's
notes: the largest `end` over the notes, `0` when there are none (event
times in a MIDI file are non-negative, so the fold from `0` agrees with the
library's maximum over all event times). -/
def getEndTime (notes : List PNote) : ℚ :=
  notes.foldl (fun a n => max a n.stop) 0

/-- The value the encoder writes for a note (`1.0` in presence mode,
`velocity / 127.0` in velocity mode). -/
def noteValue (include_velocity : Bool) (n : PNote) : ℚ :=
  if include_velocity then (n.velocity : ℚ) / 127 else 1

/-- One iteration of the encoder's note loop (`midi_to_pianoroll_tensor`,
body of `for note in instrument.notes`): skip an out-of-range pitch, else
write `value` into `piano_roll[start_step:min(end_step, num_time_steps),
pitch_index]` with `np.maximum` merging.  Negative `start_step`, where a
numpy slice would wrap around, does not occur for the non-negative note
times of a MIDI file; theorems about the encoder assume non-negative times. -/
def writeNote (fs : ℚ) (T : ℕ) (p0 p1 : ℤ) (include_velocity : Bool)
    (g : ℕ → ℕ → ℚ) (n : PNote) : ℕ → ℕ → ℚ :=
  if p0 ≤ n.pitch ∧ n.pitch < p1 then
    let start_step := pyRound (n.start * fs)
    let end_step := pyRound (n.stop * fs)
    let pitch_index := (n.pitch - p0).toNat
    if start_step < (T : ℤ) then
      let value := noteValue include_velocity n
      fun t p =>
        if p = pitch_index ∧ start_step ≤ (t : ℤ) ∧ (t : ℤ) < min end_step (T : ℤ)
        then max (g t p) value
        else g t p
    else g
  else g

/-- `midi_to_pianoroll_tensor(midi_path, fs, pitch_range, include_velocity)`.
The MIDI file stands for its list of (non-drum) notes.  `num_time_steps =
ceil(end_time * fs)`, `num_pitches = pitch_range[1] - pitch_range[0]`;
`num_pitches <= 0` is rejected (`return None`), and a negative time-step
count (impossible for `fs ≥ 0`) makes `np.zeros` raise, which the
`except` clause also turns into `None`. -/
def midi_to_pianoroll_tensor (notes : List PNote) (fs : ℚ)
    (pitch_range : ℤ × ℤ) (include_velocity : Bool) : Option Grid :=
  let end_time := getEndTime notes
  let num_time_stepsZ := ⌈end_time * fs⌉
  let num_pitches := pitch_range.2 - pitch_range.1
  if num_pitches ≤ 0 then none
  else if num_time_stepsZ < 0 then none
  else some ⟨num_time_stepsZ.toNat, num_pitches.toNat,
    notes.foldl
      (writeNote fs num_time_stepsZ.toNat pitch_range.1 pitch_range.2 include_velocity)
      (fun _ _ => 0)⟩

/-- First value stored under a key in the active-note association list
(Python `current_notes[pitch]` / `pitch in current_notes`). -/
def lookupNote (pitch : ℤ) : List (ℤ × ℕ × ℚ) → Option (ℕ × ℚ)
  | [] => none
  | e :: rest => if e.1 = pitch then some e.2 else lookupNote pitch rest

/-- Remove a key from the active-note association list (Python
`current_notes.pop(pitch)`). -/
def eraseNote (pitch : ℤ) (l : List (ℤ × ℕ × ℚ)) : List (ℤ × ℕ × ℚ) :=
  l.filter (fun e => ¬ e.1 = pitch)

/-- Decoder scan state: the insertion-ordered active-note map
`current_notes : pitch → (start_step, velocity)` and the note list built so
far (`instrument.notes`). -/
abbrev DecState := List (ℤ × ℕ × ℚ) × List PNote

/-- One inner-loop iteration of `pianoroll_tensor_to_midi` at time step `t`
and pitch index `pidx`: close the active note when the cell drops below the
threshold (emitting it when it meets the minimum duration), keep it when the
cell stays active, open a new one on an inactive→active transition. -/
def decodeCell (g : Grid) (velocity_threshold : ℚ) (note_duration_steps : ℤ)
    (min_pitch : ℤ) (seconds_per_step : ℚ) (t : ℕ) (st : DecState) (pidx : ℕ) :
    DecState :=
  let pitch := min_pitch + (pidx : ℤ)
  let velocity_value := g.val t pidx
  let is_active := velocity_threshold ≤ velocity_value
  match lookupNote pitch st.1 with
  | some sv =>
      if is_active then st
      else
        let cn := eraseNote pitch st.1
        if note_duration_steps ≤ (t : ℤ) - (sv.1 : ℤ) then
          (cn, st.2 ++ [⟨pyInt (sv.2 * 127), pitch,
            (sv.1 : ℚ) * seconds_per_step, (t : ℚ) * seconds_per_step⟩])
        else (cn, st.2)
  | none =>
      if is_active then (st.1 ++ [(pitch, t, velocity_value)], st.2) else st

/-- The time-major double loop of `pianoroll_tensor_to_midi`:
`for time_step in range(num_time_steps): for pitch_index in range(num_pitches)`. -/
def decodeScan (g : Grid) (velocity_threshold : ℚ) (note_duration_steps : ℤ)
    (min_pitch : ℤ) (seconds_per_step : ℚ) : DecState :=
  (List.range g.numTimeSteps).foldl
    (fun st t => (List.range g.numPitches).foldl
      (decodeCell g velocity_threshold note_duration_steps min_pitch seconds_per_step t) st)
    ([], [])

/-- The final loop of `pianoroll_tensor_to_midi`: notes still in
`current_notes` after the scan end at `final_time = num_time_steps *
seconds_per_step`, subject to the same minimum-duration filter; the dict is
iterated in insertion order. -/
def flushState (g : Grid) (note_duration_steps : ℤ) (seconds_per_step : ℚ)
    (st : DecState) : List PNote :=
  st.1.foldl
    (fun evs e =>
      if note_duration_steps ≤ (g.numTimeSteps : ℤ) - (e.2.1 : ℤ) then
        evs ++ [⟨pyInt (e.2.2 * 127), e.1, (e.2.1 : ℚ) * seconds_per_step,
          (g.numTimeSteps : ℚ) * seconds_per_step⟩]
      else evs)
    st.2

/-- `pianoroll_tensor_to_midi(piano_roll, file_path, fs, pitch_range,
velocity_threshold, note_duration_steps)`: scan the grid time-major, then
flush the still-active notes at `final_time = num_time_steps / fs`.  The
produced note list stands for the written MIDI file.  `fs = 0` raises
`ZeroDivisionError` at `seconds_per_step = 1.0 / fs`, which the `except`
clause turns into `None`; no other input is validated. -/
def pianoroll_tensor_to_midi (g : Grid) (fs : ℚ) (pitch_range : ℤ × ℤ)
    (velocity_threshold : ℚ) (note_duration_steps : ℤ) : Option (List PNote) :=
  if fs = 0 then none
  else
    let seconds_per_step := 1 / fs
    let min_pitch := pitch_range.1
    some (flushState g note_duration_steps seconds_per_step
      (decodeScan g velocity_threshold note_duration_steps min_pitch seconds_per_step))

/-! ### Per-pitch projection of the decoder

The decoder's active-note dictionary is keyed by pitch and the cell handler
at `(t, pidx)` touches only the key `min_pitch + pidx`, so the scan restricted
to one pitch is an independent two-state machine over that grid column.  The
definitions below name that projection; the projection lemmas relate it to
`decodeScan`/`flushState`. -/

/-- Per-pitch state: `none` = inactive, `some (start_step, onset value)` =
active, plus the runs `(start_step, end_step, onset value)` closed so far. -/
abbrev ColState := Option (ℕ × ℚ) × List (ℕ × ℕ × ℚ)

/-- `decodeCell` as it acts on a single pitch's state and closed-run list. -/
def colStep (θ : ℚ) (d : ℤ) (col : ℕ → ℚ) (st : ColState) (t : ℕ) : ColState :=
  match st.1 with
  | some sv =>
      if θ ≤ col t then st
      else (none, if d ≤ (t : ℤ) - (sv.1 : ℤ) then st.2 ++ [(sv.1, t, sv.2)] else st.2)
  | none => if θ ≤ col t then (some (t, col t), st.2) else st

/-- The per-pitch machine after scanning time steps `0, …, t-1` of a column. -/
def colScanAux (θ : ℚ) (d : ℤ) (col : ℕ → ℚ) : ℕ → ColState
  | 0 => (none, [])
  | t + 1 => colStep θ d col (colScanAux θ d col t) t

/-- Per-pitch flush: a run still open at the end of the scan ends at step `T`. -/
def colFlush (d : ℤ) (T : ℕ) : Option (ℕ × ℚ) → List (ℕ × ℕ × ℚ)
  | none => []
  | some sv => if d ≤ (T : ℤ) - (sv.1 : ℤ) then [(sv.1, T, sv.2)] else []

/-- All runs (closed and flushed) the decoder accepts in one column. -/
def colRuns (θ : ℚ) (d : ℤ) (col : ℕ → ℚ) (T : ℕ) : List (ℕ × ℕ × ℚ) :=
  (colScanAux θ d col T).2 ++ colFlush d T (colScanAux θ d col T).1

/-- The note the decoder emits for a run `(start_step, end_step, onset)`. -/
def runToNote (seconds_per_step : ℚ) (pitch : ℤ) (r : ℕ × ℕ × ℚ) : PNote :=
  ⟨pyInt (r.2.2 * 127), pitch, (r.1 : ℚ) * seconds_per_step, (r.2.1 : ℚ) * seconds_per_step⟩

/-- Column `i` of a grid as a function of the time step. -/
def colOf (g : Grid) (i : ℕ) : ℕ → ℚ := fun t => g.val t i

/-- `[s, e)` is a maximal run of cells `≥ θ` in a column of height `T`. -/
def isMaxRun (θ : ℚ) (col : ℕ → ℚ) (T s e : ℕ) : Prop :=
  s < e ∧ e ≤ T ∧ (∀ t, s ≤ t → t < e → θ ≤ col t) ∧
    (s = 0 ∨ col (s - 1) < θ) ∧ (e = T ∨ col e < θ)

/-- Correspondence between the full decoder state and one pitch's projected
state: the dictionary entry for `min_pitch + i` matches the column state and
the notes of that pitch match the column's closed runs. -/
def colRel (seconds_per_step : ℚ) (p0 : ℤ) (i : ℕ) (st : DecState) (c : ColState) : Prop :=
  lookupNote (p0 + (i : ℤ)) st.1 = c.1 ∧
    st.2.filter (fun n => n.pitch == p0 + (i : ℤ)) = c.2.map (runToNote seconds_per_step (p0 + (i : ℤ)))

/-- Structural invariant of the decoder state: dictionary keys are distinct
and both the keys and the emitted pitches lie in the scanned pitch window. -/
def goodState (p0 : ℤ) (P : ℕ) (st : DecState) : Prop :=
  (st.1.map Prod.fst).Nodup ∧
    (∀ e ∈ st.1, ∃ i, i < P ∧ e.1 = p0 + (i : ℤ)) ∧
    (∀ n ∈ st.2, ∃ i, i < P ∧ n.pitch = p0 + (i : ℤ))

/-- The encoder writes note `n` into cell `(t, p)` of a grid with `T` time
steps: the pitch is in range, `p` is its pitch index, and `t` lies in the
written slice `[start_step, min(end_step, T))` (which exists only when
`start_step < T`). -/
def covers (fs : ℚ) (T : ℕ) (p0 p1 : ℤ) (n : PNote) (t p : ℕ) : Prop :=
  (p0 ≤ n.pitch ∧ n.pitch < p1) ∧ p = (n.pitch - p0).toNat ∧
    pyRound (n.start * fs) < (T : ℤ) ∧
    pyRound (n.start * fs) ≤ (t : ℤ) ∧ (t : ℤ) < min (pyRound (n.stop * fs)) (T : ℤ)

instance coversDecidable (fs : ℚ) (T : ℕ) (p0 p1 : ℤ) (n : PNote) (t p : ℕ) :
    Decidable (covers fs T p0 p1 n t p) := by
  unfold covers
  exact inferInstance

/-- Cell values of the form `k/127` with `k` an integer; every cell the
encoder produces has this form, which makes `int(value * 127) / 127` the
identity on encoded grids. -/
def Q127 (x : ℚ) : Prop := ∃ k : ℤ, x = (k : ℚ) / 127

section Sanity

/-- Concrete scenario from the decoder contract: grid column `[0,1,1,0]` at
`fs = 4`, threshold `1/2`, minimum duration `1` decodes to one note,
pitch 60, start `0.25`, end `0.75`, velocity `127`. -/
example :
    pianoroll_tensor_to_midi ⟨4, 2, fun t p => if p = 0 ∧ (t = 1 ∨ t = 2) then 1 else 0⟩
      4 (60, 62) (1/2) 1 = some [⟨127, 60, 1/4, 3/4⟩] := by with_unfolding_all decide

example : pyRound (63/2) = 32 := by with_unfolding_all decide

example : pyRound (1/2) = 0 := by with_unfolding_all decide

example : pyInt (127/2) = 63 := by with_unfolding_all decide

/-- Overlap scenario from the spec: two notes at pitch 60, `(0,1,vel 50)` and
`(1/2,3/2,vel 100)`, `fs = 2`, velocity mode: cell at step 1 is `100/127`. -/
example :
    (midi_to_pianoroll_tensor [⟨50, 60, 0, 1⟩, ⟨100, 60, 1/2, 3/2⟩] 2 (60, 62) true).map
      (fun g => g.val 1 0) = some (100/127) := by with_unfolding_all decide

end Sanity

/-! ### Rounding and truncation -/

theorem pyRound_intCast (k : ℤ) : pyRound (k : ℚ) = k := by
  unfold pyRound
  rw [Int.floor_intCast]
  norm_num

theorem pyRound_natCast (n : ℕ) : pyRound (n : ℚ) = n := by
  have := pyRound_intCast (n : ℤ)
  push_cast at this
  exact this

theorem pyInt_intCast (k : ℤ) : pyInt (k : ℚ) = k := by
  unfold pyInt
  split_ifs <;> simp

theorem pyRound_le_ceil (x : ℚ) : pyRound x ≤ ⌈x⌉ := by
  unfold pyRound
  have hfc := Int.floor_le_ceil x
  split_ifs with h1 h2 h3
  · exact hfc
  · rw [Int.add_one_le_iff, Int.lt_ceil]
    have : (⌊x⌋ : ℚ) < x := by linarith
    exact_mod_cast this
  · exact hfc
  · rw [Int.add_one_le_iff, Int.lt_ceil]
    have : (⌊x⌋ : ℚ) < x := by linarith
    exact_mod_cast this

theorem pyInt_nonneg (x : ℚ) (hx : 0 ≤ x) : 0 ≤ pyInt x := by
  unfold pyInt
  rw [if_neg (not_lt.2 hx)]
  exact Int.floor_nonneg.2 hx

/-! ### Encoder cell characterization

`writeNote` is a pointwise conditional maximum, so the value of any cell of
an encoded grid is the supremum of the initial value and the values of the
notes whose written slice covers the cell.  The Galois-style `≤`
characterization below determines the fold completely. -/

theorem writeNote_val (fs : ℚ) (T : ℕ) (p0 p1 : ℤ) (iv : Bool) (g : ℕ → ℕ → ℚ)
    (n : PNote) (t p : ℕ) :
    writeNote fs T p0 p1 iv g n t p =
      if covers fs T p0 p1 n t p then max (g t p) (noteValue iv n) else g t p := by
  unfold writeNote covers
  by_cases h1 : p0 ≤ n.pitch ∧ n.pitch < p1
  · by_cases h2 : pyRound (n.start * fs) < (T : ℤ)
    · simp only [if_pos h1, if_pos h2]
      split_ifs with h3 h4 h4
      · rfl
      · exact absurd ⟨h1, h3.1, h2, h3.2⟩ h4
      · exact absurd ⟨h4.2.1, h4.2.2.2⟩ h3
      · rfl
    · simp only [if_pos h1, if_neg h2]
      split_ifs with h3
      · exact absurd h3.2.2.1 h2
      · rfl
  · simp only [if_neg h1]
    split_ifs with h3
    · exact absurd h3.1 h1
    · rfl

theorem foldl_writeNote_le_iff (fs : ℚ) (T : ℕ) (p0 p1 : ℤ) (iv : Bool)
    (l : List PNote) (g0 : ℕ → ℕ → ℚ) (t p : ℕ) (q : ℚ) :
    (l.foldl (writeNote fs T p0 p1 iv) g0) t p ≤ q ↔
      (g0 t p ≤ q ∧ ∀ n ∈ l, covers fs T p0 p1 n t p → noteValue iv n ≤ q) := by
  induction l generalizing g0 with
  | nil => simp
  | cons n l ih =>
      rw [List.foldl_cons, ih]
      rw [writeNote_val]
      by_cases hc : covers fs T p0 p1 n t p
      · rw [if_pos hc]
        simp only [max_le_iff, List.mem_cons]
        constructor
        · rintro ⟨⟨hg, hv⟩, hrest⟩
          exact ⟨hg, by rintro m (rfl | hm) hmc; exacts [hv, hrest m hm hmc]⟩
        · rintro ⟨hg, hall⟩
          exact ⟨⟨hg, hall n (Or.inl rfl) hc⟩, fun m hm hmc => hall m (Or.inr hm) hmc⟩
      · rw [if_neg hc]
        simp only [List.mem_cons]
        constructor
        · rintro ⟨hg, hrest⟩
          exact ⟨hg, by rintro m (rfl | hm) hmc; exacts [absurd hmc hc, hrest m hm hmc]⟩
        · rintro ⟨hg, hall⟩
          exact ⟨hg, fun m hm hmc => hall m (Or.inr hm) hmc⟩

theorem foldl_writeNote_init_le (fs : ℚ) (T : ℕ) (p0 p1 : ℤ) (iv : Bool)
    (l : List PNote) (g0 : ℕ → ℕ → ℚ) (t p : ℕ) :
    g0 t p ≤ (l.foldl (writeNote fs T p0 p1 iv) g0) t p :=
  ((foldl_writeNote_le_iff fs T p0 p1 iv l g0 t p _).1 le_rfl).1

theorem foldl_writeNote_value_le (fs : ℚ) (T : ℕ) (p0 p1 : ℤ) (iv : Bool)
    (l : List PNote) (g0 : ℕ → ℕ → ℚ) (t p : ℕ) (n : PNote) (hn : n ∈ l)
    (hc : covers fs T p0 p1 n t p) :
    noteValue iv n ≤ (l.foldl (writeNote fs T p0 p1 iv) g0) t p :=
  ((foldl_writeNote_le_iff fs T p0 p1 iv l g0 t p _).1 le_rfl).2 n hn hc

theorem foldl_writeNote_eq_init (fs : ℚ) (T : ℕ) (p0 p1 : ℤ) (iv : Bool)
    (l : List PNote) (g0 : ℕ → ℕ → ℚ) (t p : ℕ)
    (h : ∀ n ∈ l, ¬ covers fs T p0 p1 n t p) :
    (l.foldl (writeNote fs T p0 p1 iv) g0) t p = g0 t p :=
  le_antisymm
    ((foldl_writeNote_le_iff fs T p0 p1 iv l g0 t p _).2
      ⟨le_rfl, fun n hn hc => absurd hc (h n hn)⟩)
    (foldl_writeNote_init_le fs T p0 p1 iv l g0 t p)

theorem foldl_writeNote_eq_of_unique (fs : ℚ) (T : ℕ) (p0 p1 : ℤ) (iv : Bool)
    (l : List PNote) (g0 : ℕ → ℕ → ℚ) (t p : ℕ) (v : ℚ)
    (hex : ∃ n ∈ l, covers fs T p0 p1 n t p ∧ noteValue iv n = v)
    (hall : ∀ n ∈ l, covers fs T p0 p1 n t p → noteValue iv n ≤ v)
    (hg : g0 t p ≤ v) :
    (l.foldl (writeNote fs T p0 p1 iv) g0) t p = v := by
  obtain ⟨n, hn, hc, hv⟩ := hex
  refine le_antisymm ?_ ?_
  · exact (foldl_writeNote_le_iff fs T p0 p1 iv l g0 t p v).2 ⟨hg, hall⟩
  · rw [← hv]
    exact foldl_writeNote_value_le fs T p0 p1 iv l g0 t p n hn hc

/-! ### The per-pitch run machine

`colScanAux` is characterized completely: the live state is the (unique)
onset of the currently running active streak, and the closed-run list holds
exactly the maximal runs that ended strictly before the scan position and
met the minimum duration. -/

theorem run_start_unique (θ : ℚ) (col : ℕ → ℚ) (e s s' : ℕ)
    (hs : s < e) (hs' : s' < e)
    (ha : ∀ u, s ≤ u → u < e → θ ≤ col u) (ha' : ∀ u, s' ≤ u → u < e → θ ≤ col u)
    (hb : s = 0 ∨ col (s - 1) < θ) (hb' : s' = 0 ∨ col (s' - 1) < θ) : s = s' := by
  by_contra hne
  rcases Nat.lt_or_ge s s' with h | h
  · rcases hb' with h0 | hlt
    · omega
    · exact absurd (ha (s' - 1) (by omega) (by omega)) (not_le.2 hlt)
  · have h' : s' < s := by omega
    rcases hb with h0 | hlt
    · omega
    · exact absurd (ha' (s - 1) (by omega) (by omega)) (not_le.2 hlt)

theorem colScanAux_spec (θ : ℚ) (d : ℤ) (col : ℕ → ℚ) (t : ℕ) :
    (∀ s v, (colScanAux θ d col t).1 = some (s, v) →
      v = col s ∧ s < t ∧ (∀ u, s ≤ u → u < t → θ ≤ col u) ∧ (s = 0 ∨ col (s - 1) < θ)) ∧
    ((colScanAux θ d col t).1 = none → t = 0 ∨ col (t - 1) < θ) ∧
    (∀ s e v, (s, e, v) ∈ (colScanAux θ d col t).2 ↔
      s < e ∧ e < t ∧ (∀ u, s ≤ u → u < e → θ ≤ col u) ∧ (s = 0 ∨ col (s - 1) < θ) ∧
        col e < θ ∧ d ≤ (e : ℤ) - (s : ℤ) ∧ v = col s) := by
  induction t with
  | zero =>
      refine ⟨?_, fun _ => Or.inl rfl, ?_⟩
      · intro s v h
        simp [colScanAux] at h
      · intro s e v
        simp only [colScanAux, List.not_mem_nil, false_iff]
        rintro ⟨-, he, -⟩
        exact absurd he (Nat.not_lt_zero e)
  | succ t ih =>
      obtain ⟨ih1, ih2, ih3⟩ := ih
      rcases hst : (colScanAux θ d col t).1 with _ | ⟨s0, v0⟩
      · by_cases hact : θ ≤ col t
        · -- inactive → active: a run opens at t
          have hnew : colScanAux θ d col (t + 1) =
              (some (t, col t), (colScanAux θ d col t).2) := by
            simp [colScanAux, colStep, hst, hact]
          refine ⟨?_, ?_, ?_⟩
          · intro s v h
            rw [hnew] at h
            simp only [Option.some.injEq, Prod.mk.injEq] at h
            obtain ⟨h1, h2⟩ := h
            refine ⟨?_, by omega, ?_, ?_⟩
            · rw [← h2, ← h1]
            · intro u hu hu'
              have hut : u = t := by omega
              rw [hut]
              exact hact
            · rw [← h1]
              exact ih2 hst
          · intro h
            rw [hnew] at h
            exact absurd h (by simp)
          · intro s e v
            rw [hnew]
            dsimp only
            rw [ih3 s e v]
            constructor
            · rintro ⟨h1, h2, h3, h4, h5, h6, h7⟩
              exact ⟨h1, by omega, h3, h4, h5, h6, h7⟩
            · rintro ⟨h1, h2, h3, h4, h5, h6, h7⟩
              refine ⟨h1, ?_, h3, h4, h5, h6, h7⟩
              rcases Nat.lt_succ_iff_lt_or_eq.1 h2 with h | he
              · exact h
              · rw [he] at h5
                exact absurd hact (not_le.2 h5)
        · -- inactive → inactive: nothing changes
          have hnew : colScanAux θ d col (t + 1) = colScanAux θ d col t := by
            simp [colScanAux, colStep, hst, hact]
          have hnone : t = 0 ∨ col (t - 1) < θ := ih2 hst
          refine ⟨?_, fun _ => Or.inr (by simpa using not_le.1 hact), ?_⟩
          · intro s v h
            rw [hnew, hst] at h
            exact absurd h (by simp)
          · intro s e v
            rw [hnew, ih3 s e v]
            constructor
            · rintro ⟨h1, h2, h3, h4, h5, h6, h7⟩
              exact ⟨h1, by omega, h3, h4, h5, h6, h7⟩
            · rintro ⟨h1, h2, h3, h4, h5, h6, h7⟩
              refine ⟨h1, ?_, h3, h4, h5, h6, h7⟩
              rcases Nat.lt_succ_iff_lt_or_eq.1 h2 with h | he
              · exact h
              · rcases hnone with h0 | hlt
                · omega
                · have h' : θ ≤ col (t - 1) := by
                    have hx := h3 (e - 1) (by omega) (by omega)
                    have he' : e - 1 = t - 1 := by omega
                    rwa [he'] at hx
                  exact absurd h' (not_le.2 hlt)
      · obtain ⟨hv0, hs0t, hact0, hb0⟩ := ih1 s0 v0 hst
        by_cases hact : θ ≤ col t
        · -- active → active: the run continues
          have hnew : colScanAux θ d col (t + 1) = colScanAux θ d col t := by
            simp [colScanAux, colStep, hst, hact]
          refine ⟨?_, ?_, ?_⟩
          · intro s v h
            rw [hnew, hst] at h
            simp only [Option.some.injEq, Prod.mk.injEq] at h
            obtain ⟨h1, h2⟩ := h
            refine ⟨?_, by omega, ?_, ?_⟩
            · rw [← h2, ← h1]
              exact hv0
            · intro u hu hu'
              rcases Nat.lt_succ_iff_lt_or_eq.1 hu' with h | hu0
              · exact hact0 u (by omega) h
              · rw [hu0]
                exact hact
            · rw [← h1]
              exact hb0
          · intro h
            rw [hnew, hst] at h
            exact absurd h (by simp)
          · intro s e v
            rw [hnew, ih3 s e v]
            constructor
            · rintro ⟨h1, h2, h3, h4, h5, h6, h7⟩
              exact ⟨h1, by omega, h3, h4, h5, h6, h7⟩
            · rintro ⟨h1, h2, h3, h4, h5, h6, h7⟩
              refine ⟨h1, ?_, h3, h4, h5, h6, h7⟩
              rcases Nat.lt_succ_iff_lt_or_eq.1 h2 with h | he
              · exact h
              · rw [he] at h5
                exact absurd hact (not_le.2 h5)
        · -- active → inactive: the run closes at t
          have hnew : colScanAux θ d col (t + 1) =
              (none, if d ≤ (t : ℤ) - (s0 : ℤ)
                then (colScanAux θ d col t).2 ++ [(s0, t, v0)]
                else (colScanAux θ d col t).2) := by
            simp [colScanAux, colStep, hst, hact]
          have hlt : col t < θ := not_le.1 hact
          refine ⟨?_, fun _ => Or.inr (by simpa using hlt), ?_⟩
          · intro s v h
            rw [hnew] at h
            exact absurd h (by simp)
          · intro s e v
            rw [hnew]
            dsimp only
            constructor
            · intro h
              by_cases hd : d ≤ (t : ℤ) - (s0 : ℤ)
              · rw [if_pos hd] at h
                rcases List.mem_append.1 h with h | h
                · obtain ⟨h1, h2, h3, h4, h5, h6, h7⟩ := (ih3 s e v).1 h
                  exact ⟨h1, by omega, h3, h4, h5, h6, h7⟩
                · simp only [List.mem_singleton, Prod.mk.injEq] at h
                  obtain ⟨hA, hB, hC⟩ := h
                  refine ⟨by omega, by omega, ?_, ?_, ?_, ?_, ?_⟩
                  · intro u hu hu'
                    exact hact0 u (by omega) (by omega)
                  · rw [hA]
                    exact hb0
                  · rw [hB]
                    exact hlt
                  · rw [hA, hB]
                    exact hd
                  · rw [hC, hA]
                    exact hv0
              · rw [if_neg hd] at h
                obtain ⟨h1, h2, h3, h4, h5, h6, h7⟩ := (ih3 s e v).1 h
                exact ⟨h1, by omega, h3, h4, h5, h6, h7⟩
            · rintro ⟨h1, h2, h3, h4, h5, h6, h7⟩
              rcases Nat.lt_succ_iff_lt_or_eq.1 h2 with h | he
              · have hmem := (ih3 s e v).2 ⟨h1, h, h3, h4, h5, h6, h7⟩
                split_ifs <;> simp [hmem]
              · have hse : s = s0 := by
                  refine run_start_unique θ col e s s0 h1 (by omega) h3 ?_ h4 hb0
                  intro u hu hu'
                  exact hact0 u hu (by omega)
                rw [if_pos (by omega : d ≤ (t : ℤ) - (s0 : ℤ))]
                refine List.mem_append.2 (Or.inr ?_)
                simp only [List.mem_singleton, Prod.mk.injEq]
                refine ⟨hse, he, ?_⟩
                rw [h7, hse]
                exact hv0.symm

theorem colRuns_mem (θ : ℚ) (d : ℤ) (col : ℕ → ℚ) (T : ℕ) (s e : ℕ) (v : ℚ) :
    (s, e, v) ∈ colRuns θ d col T ↔
      isMaxRun θ col T s e ∧ d ≤ (e : ℤ) - (s : ℤ) ∧ v = col s := by
  obtain ⟨sp1, sp2, sp3⟩ := colScanAux_spec θ d col T
  unfold colRuns colFlush isMaxRun
  rcases hst : (colScanAux θ d col T).1 with _ | ⟨s0, v0⟩
  · simp only [List.append_nil]
    rw [sp3 s e v]
    constructor
    · rintro ⟨h1, h2, h3, h4, h5, h6, h7⟩
      exact ⟨⟨h1, by omega, h3, h4, Or.inr h5⟩, h6, h7⟩
    · rintro ⟨⟨h1, h2, h3, h4, h5⟩, h6, h7⟩
      rcases eq_or_lt_of_le h2 with he | he
      · -- a run reaching T would have left the scan live
        exfalso
        rcases sp2 hst with h0 | hlt
        · omega
        · have hx : θ ≤ col (T - 1) := by
            have hy := h3 (e - 1) (by omega) (by omega)
            have hz : e - 1 = T - 1 := by omega
            rwa [hz] at hy
          exact absurd hx (not_le.2 hlt)
      · rcases h5 with h5e | h5c
        · omega
        · exact ⟨h1, he, h3, h4, h5c, h6, h7⟩
  · obtain ⟨hv0, hs0, hact0, hb0⟩ := sp1 s0 v0 hst
    dsimp only
    constructor
    · intro h
      rcases List.mem_append.1 h with h | h
      · obtain ⟨h1, h2, h3, h4, h5, h6, h7⟩ := (sp3 s e v).1 h
        exact ⟨⟨h1, by omega, h3, h4, Or.inr h5⟩, h6, h7⟩
      · by_cases hd : d ≤ (T : ℤ) - (s0 : ℤ)
        · rw [if_pos hd] at h
          simp only [List.mem_singleton, Prod.mk.injEq] at h
          obtain ⟨hA, hB, hC⟩ := h
          refine ⟨⟨by omega, by omega, ?_, ?_, Or.inl hB⟩, ?_, ?_⟩
          · intro u hu hu'
            exact hact0 u (by omega) (by omega)
          · rw [hA]
            exact hb0
          · rw [hA, hB]
            exact hd
          · rw [hC, hA]
            exact hv0
        · rw [if_neg hd] at h
          exact absurd h (List.not_mem_nil _)
    · rintro ⟨⟨h1, h2, h3, h4, h5⟩, h6, h7⟩
      rcases eq_or_lt_of_le h2 with he | he
      · have hse : s = s0 := by
          refine run_start_unique θ col T s s0 (by omega) hs0 ?_ hact0 h4 hb0
          intro u hu hu'
          exact h3 u hu (by omega)
        refine List.mem_append.2 (Or.inr ?_)
        rw [if_pos (by omega : d ≤ (T : ℤ) - (s0 : ℤ))]
        simp only [List.mem_singleton, Prod.mk.injEq]
        refine ⟨hse, he, ?_⟩
        rw [h7, hse]
        exact hv0.symm
      · rcases h5 with h5e | h5c
        · omega
        · exact List.mem_append.2 (Or.inl ((sp3 s e v).2 ⟨h1, he, h3, h4, h5c, h6, h7⟩))

theorem maxRun_eq_of_overlap (θ : ℚ) (col : ℕ → ℚ) (T s e s' e' u : ℕ)
    (h : isMaxRun θ col T s e) (h' : isMaxRun θ col T s' e')
    (hu : s ≤ u ∧ u < e) (hu' : s' ≤ u ∧ u < e') : s = s' ∧ e = e' := by
  obtain ⟨h1, h2, h3, h4, h5⟩ := h
  obtain ⟨h1', h2', h3', h4', h5'⟩ := h'
  have hss : s = s' := by
    by_contra hne
    rcases Nat.lt_or_ge s s' with hlt | hge
    · rcases h4' with h0 | hc
      · omega
      · exact absurd (h3 (s' - 1) (by omega) (by omega)) (not_le.2 hc)
    · have hlt : s' < s := by omega
      rcases h4 with h0 | hc
      · omega
      · exact absurd (h3' (s - 1) (by omega) (by omega)) (not_le.2 hc)
  refine ⟨hss, ?_⟩
  by_contra hne
  rcases Nat.lt_or_ge e e' with hlt | hge
  · rcases h5 with h0 | hc
    · omega
    · exact absurd (h3' e (by omega) (by omega)) (not_le.2 hc)
  · have hlt : e' < e := by omega
    rcases h5' with h0 | hc
    · omega
    · exact absurd (h3 e' (by omega) (by omega)) (not_le.2 hc)

theorem maxRun_separated (θ : ℚ) (col : ℕ → ℚ) (T s e s' e' : ℕ)
    (h : isMaxRun θ col T s e) (h' : isMaxRun θ col T s' e')
    (hne : ¬ (s = s' ∧ e = e')) : e < s' ∨ e' < s := by
  by_contra hcon
  push_neg at hcon
  obtain ⟨hc1, hc2⟩ := hcon
  have h1 := h.1
  have h1' := h'.1
  have h2 := h.2.1
  have h2' := h'.2.1
  have hs'e : s' < e := by
    rcases eq_or_lt_of_le hc1 with heq | hlt
    · exfalso
      have hact : θ ≤ col s' := h'.2.2.1 s' le_rfl h1'
      rcases h.2.2.2.2 with h0 | hcc
      · omega
      · rw [← heq] at hcc
        exact absurd hact (not_le.2 hcc)
    · exact hlt
  have hse' : s < e' := by
    rcases eq_or_lt_of_le hc2 with heq | hlt
    · exfalso
      have hact : θ ≤ col s := h.2.2.1 s le_rfl h1
      rcases h'.2.2.2.2 with h0 | hcc
      · omega
      · rw [heq] at hact
        exact absurd hact (not_le.2 hcc)
    · exact hlt
  exact hne (maxRun_eq_of_overlap θ col T s e s' e' (max s s') h h'
    ⟨le_max_left s s', by omega⟩ ⟨le_max_right s s', by omega⟩)

/-! ### Association-list dictionary lemmas -/

theorem lookupNote_eq_none_iff (k : ℤ) (l : List (ℤ × ℕ × ℚ)) :
    lookupNote k l = none ↔ k ∉ l.map Prod.fst := by
  induction l with
  | nil => simp [lookupNote]
  | cons e rest ih =>
      by_cases he : e.1 = k
      · simp [lookupNote, he]
      · simp only [lookupNote, if_neg he, List.map_cons, List.mem_cons, ih]
        constructor
        · rintro h (hk | hk)
          · exact he hk.symm
          · exact h hk
        · intro h hk
          exact h (Or.inr hk)

theorem lookupNote_append (k : ℤ) (l l' : List (ℤ × ℕ × ℚ)) :
    lookupNote k (l ++ l') =
      match lookupNote k l with
      | some x => some x
      | none => lookupNote k l' := by
  induction l with
  | nil => simp [lookupNote]
  | cons e rest ih =>
      by_cases he : e.1 = k
      · simp [lookupNote, he]
      · simp [lookupNote, he, ih]

theorem lookupNote_append_self (k : ℤ) (l : List (ℤ × ℕ × ℚ)) (x : ℕ × ℚ)
    (h : lookupNote k l = none) : lookupNote k (l ++ [(k, x)]) = some x := by
  rw [lookupNote_append, h]
  simp [lookupNote]

theorem lookupNote_append_ne (k k' : ℤ) (l : List (ℤ × ℕ × ℚ)) (x : ℕ × ℚ)
    (h : k' ≠ k) : lookupNote k (l ++ [(k', x)]) = lookupNote k l := by
  rw [lookupNote_append]
  rcases hl : lookupNote k l with _ | y
  · simp [lookupNote, h]
  · rfl

theorem lookupNote_erase_self (k : ℤ) (l : List (ℤ × ℕ × ℚ)) :
    lookupNote k (eraseNote k l) = none := by
  rw [lookupNote_eq_none_iff]
  intro hmem
  obtain ⟨e, he, hek⟩ := List.mem_map.1 hmem
  have := List.of_mem_filter he
  simp only [decide_not, decide_eq_true_eq, Bool.not_eq_true] at this
  rw [hek] at this
  simp at this

theorem lookupNote_erase_ne (k k' : ℤ) (l : List (ℤ × ℕ × ℚ)) (h : k ≠ k') :
    lookupNote k (eraseNote k' l) = lookupNote k l := by
  induction l with
  | nil => rfl
  | cons e rest ih =>
      by_cases he : e.1 = k'
      · have hek : ¬ e.1 = k := by
          rw [he]
          exact fun hh => h hh.symm
        simp only [eraseNote, List.filter_cons]
        rw [if_neg (by simp [he])]
        rw [lookupNote, if_neg hek]
        exact ih
      · simp only [eraseNote, List.filter_cons]
        rw [if_pos (by simp [he])]
        by_cases hek : e.1 = k
        · simp [lookupNote, hek]
        · simp only [lookupNote, if_neg hek]
          exact ih

theorem eraseNote_keys_nodup (k : ℤ) (l : List (ℤ × ℕ × ℚ))
    (h : (l.map Prod.fst).Nodup) : ((eraseNote k l).map Prod.fst).Nodup := by
  have hsub : (eraseNote k l).Sublist l := List.filter_sublist l
  exact h.sublist (hsub.map Prod.fst)

theorem eraseNote_subset (k : ℤ) (l : List (ℤ × ℕ × ℚ)) (e : ℤ × ℕ × ℚ)
    (h : e ∈ eraseNote k l) : e ∈ l :=
  List.mem_of_mem_filter h

/-! ### Projection of one decoder step to one pitch -/

theorem decodeCell_rel_self (g : Grid) (θ : ℚ) (d : ℤ) (p0 : ℤ) (sps : ℚ)
    (t i : ℕ) (st : DecState) (c : ColState)
    (h : colRel sps p0 i st c) :
    colRel sps p0 i (decodeCell g θ d p0 sps t st i) (colStep θ d (colOf g i) c t) := by
  obtain ⟨h1, h2⟩ := h
  rcases hc : c.1 with _ | ⟨s, sv⟩
  · rw [hc] at h1
    by_cases hact : θ ≤ g.val t i
    · -- open a run
      constructor
      · simp only [decodeCell, h1, colStep, hc, colOf, hact, if_pos]
        exact lookupNote_append_self _ _ _ h1
      · simp only [decodeCell, h1, colStep, hc, colOf, hact, if_pos]
        exact h2
    · constructor
      · simp only [decodeCell, h1, colStep, hc, colOf, hact, if_neg, ite_false]
      · simp only [decodeCell, h1, colStep, hc, colOf, hact, if_neg, ite_false]
        exact h2
  · rw [hc] at h1
    by_cases hact : θ ≤ g.val t i
    · constructor
      · simp only [decodeCell, h1, colStep, hc, colOf, hact, if_pos, ite_true]
      · simp only [decodeCell, h1, colStep, hc, colOf, hact, if_pos, ite_true]
        exact h2
    · by_cases hd : d ≤ (t : ℤ) - (s : ℤ)
      · constructor
        · simp only [decodeCell, h1, colStep, hc, colOf, hact, ite_false, if_neg, hd, if_pos]
          exact lookupNote_erase_self _ _
        · simp only [decodeCell, h1, colStep, hc, colOf, hact, ite_false, if_neg, hd, if_pos]
          rw [List.filter_append, h2, List.map_append]
          congr 1
          simp [runToNote]
      · constructor
        · simp only [decodeCell, h1, colStep, hc, colOf, hact, ite_false, if_neg, hd]
          exact lookupNote_erase_self _ _
        · simp only [decodeCell, h1, colStep, hc, colOf, hact, ite_false, if_neg, hd]
          exact h2

theorem decodeCell_rel_other (g : Grid) (θ : ℚ) (d : ℤ) (p0 : ℤ) (sps : ℚ)
    (t i j : ℕ) (st : DecState) (c : ColState) (hij : i ≠ j)
    (h : colRel sps p0 i st c) :
    colRel sps p0 i (decodeCell g θ d p0 sps t st j) c := by
  obtain ⟨h1, h2⟩ := h
  have hkey : p0 + (j : ℤ) ≠ p0 + (i : ℤ) := by
    intro hk
    have hji : j = i := by omega
    exact hij hji.symm
  rcases hl : lookupNote (p0 + (j : ℤ)) st.1 with _ | ⟨s, sv⟩
  · by_cases hact : θ ≤ g.val t j
    · constructor
      · simp only [decodeCell, hl, hact, if_pos, ite_true]
        rw [lookupNote_append_ne _ _ _ _ hkey]
        exact h1
      · simp only [decodeCell, hl, hact, if_pos, ite_true]
        exact h2
    · constructor
      · simp only [decodeCell, hl, hact, ite_false, if_neg]
        exact h1
      · simp only [decodeCell, hl, hact, ite_false, if_neg]
        exact h2
  · by_cases hact : θ ≤ g.val t j
    · constructor
      · simp only [decodeCell, hl, hact, if_pos, ite_true]
        exact h1
      · simp only [decodeCell, hl, hact, if_pos, ite_true]
        exact h2
    · by_cases hd : d ≤ (t : ℤ) - (s : ℤ)
      · constructor
        · simp only [decodeCell, hl, hact, ite_false, if_neg, hd, if_pos]
          rw [lookupNote_erase_ne _ _ _ (fun hk => hkey hk.symm)]
          exact h1
        · simp only [decodeCell, hl, hact, ite_false, if_neg, hd, if_pos]
          rw [List.filter_append, h2]
          have : (fun n => n.pitch == p0 + (i : ℤ))
              (⟨pyInt (sv * 127), p0 + (j : ℤ), (s : ℚ) * sps, (t : ℚ) * sps⟩ : PNote) = false := by
            simp [hkey]
          simp [List.filter_cons, this]
      · constructor
        · simp only [decodeCell, hl, hact, ite_false, if_neg, hd]
          rw [lookupNote_erase_ne _ _ _ (fun hk => hkey hk.symm)]
          exact h1
        · simp only [decodeCell, hl, hact, ite_false, if_neg, hd]
          exact h2

theorem decodeCell_good (g : Grid) (θ : ℚ) (d : ℤ) (p0 : ℤ) (sps : ℚ)
    (P t j : ℕ) (st : DecState) (hj : j < P) (h : goodState p0 P st) :
    goodState p0 P (decodeCell g θ d p0 sps t st j) := by
  obtain ⟨hnd, hkeys, hevs⟩ := h
  rcases hl : lookupNote (p0 + (j : ℤ)) st.1 with _ | ⟨s, sv⟩
  · by_cases hact : θ ≤ g.val t j
    · refine ⟨?_, ?_, ?_⟩
      · simp only [decodeCell, hl, hact, ite_true]
        rw [List.map_append]
        refine List.Nodup.append hnd (by simp) ?_
        intro a ha hb
        simp only [List.map_cons, List.map_nil, List.mem_singleton] at hb
        rw [hb] at ha
        exact (lookupNote_eq_none_iff _ _).1 hl ha
      · simp only [decodeCell, hl, hact, ite_true]
        intro e he
        rcases List.mem_append.1 he with he | he
        · exact hkeys e he
        · simp only [List.mem_singleton] at he
          exact ⟨j, hj, by rw [he]⟩
      · simp only [decodeCell, hl, hact, ite_true]
        exact hevs
    · refine ⟨?_, ?_, ?_⟩ <;> simp only [decodeCell, hl, hact, ite_false]
      · exact hnd
      · exact hkeys
      · exact hevs
  · by_cases hact : θ ≤ g.val t j
    · refine ⟨?_, ?_, ?_⟩ <;> simp only [decodeCell, hl, hact, ite_true]
      · exact hnd
      · exact hkeys
      · exact hevs
    · by_cases hd : d ≤ (t : ℤ) - (s : ℤ)
      · refine ⟨?_, ?_, ?_⟩ <;> simp only [decodeCell, hl, hact, ite_false, hd, if_pos]
        · exact eraseNote_keys_nodup _ _ hnd
        · exact fun e he => hkeys e (eraseNote_subset _ _ e he)
        · intro n hn
          rcases List.mem_append.1 hn with hn | hn
          · exact hevs n hn
          · simp only [List.mem_singleton] at hn
            exact ⟨j, hj, by rw [hn]⟩
      · refine ⟨?_, ?_, ?_⟩ <;> simp only [decodeCell, hl, hact, ite_false, hd, if_neg]
        · exact eraseNote_keys_nodup _ _ hnd
        · exact fun e he => hkeys e (eraseNote_subset _ _ e he)
        · exact hevs

theorem foldRow_rel (g : Grid) (θ : ℚ) (d : ℤ) (p0 : ℤ) (sps : ℚ) (P t : ℕ)
    (js : List ℕ) (hnd : js.Nodup) (hjs : ∀ j ∈ js, j < P)
    (st : DecState) (cst : ℕ → ColState)
    (hrel : ∀ i, i < P → colRel sps p0 i st (cst i)) :
    ∀ i, i < P → colRel sps p0 i (js.foldl (decodeCell g θ d p0 sps t) st)
      (if i ∈ js then colStep θ d (colOf g i) (cst i) t else cst i) := by
  induction js generalizing st cst with
  | nil =>
      intro i hi
      simpa using hrel i hi
  | cons j rest ih =>
      intro i hi
      have hj : j < P := hjs j (List.mem_cons_self j rest)
      have hrest : ∀ j' ∈ rest, j' < P := fun j' hj' => hjs j' (List.mem_cons_of_mem j hj')
      have hndr : rest.Nodup := (List.nodup_cons.1 hnd).2
      have hrel' : ∀ i', i' < P → colRel sps p0 i' (decodeCell g θ d p0 sps t st j)
          (if i' = j then colStep θ d (colOf g i') (cst i') t else cst i') := by
        intro i' hi'
        by_cases hij : i' = j
        · rw [if_pos hij]
          subst hij
          exact decodeCell_rel_self g θ d p0 sps t i' st (cst i') (hrel i' hi')
        · rw [if_neg hij]
          exact decodeCell_rel_other g θ d p0 sps t i' j st (cst i') hij (hrel i' hi')
      have hmain := ih hndr hrest (decodeCell g θ d p0 sps t st j)
        (fun i' => if i' = j then colStep θ d (colOf g i') (cst i') t else cst i') hrel' i hi
      dsimp only at hmain
      rw [List.foldl_cons]
      rcases Decidable.em (i ∈ rest) with hir | hir
      · rw [if_pos hir] at hmain
        have hij : i ≠ j := fun hh => (List.nodup_cons.1 hnd).1 (hh ▸ hir)
        rw [if_neg hij] at hmain
        rw [if_pos (List.mem_cons_of_mem j hir)]
        exact hmain
      · rw [if_neg hir] at hmain
        by_cases hij : i = j
        · rw [if_pos hij] at hmain
          rw [if_pos (by rw [hij]; exact List.mem_cons_self j rest)]
          exact hmain
        · rw [if_neg hij] at hmain
          rw [if_neg (by simp [List.mem_cons, hij, hir])]
          exact hmain

theorem foldRow_good (g : Grid) (θ : ℚ) (d : ℤ) (p0 : ℤ) (sps : ℚ) (P t : ℕ)
    (js : List ℕ) (hjs : ∀ j ∈ js, j < P) (st : DecState) (h : goodState p0 P st) :
    goodState p0 P (js.foldl (decodeCell g θ d p0 sps t) st) := by
  induction js generalizing st with
  | nil => exact h
  | cons j rest ih =>
      rw [List.foldl_cons]
      exact ih (fun j' hj' => hjs j' (List.mem_cons_of_mem j hj'))
        (decodeCell g θ d p0 sps t st j)
        (decodeCell_good g θ d p0 sps P t j st (hjs j (List.mem_cons_self j rest)) h)

theorem decodeScanAux_spec (g : Grid) (θ : ℚ) (d : ℤ) (p0 : ℤ) (sps : ℚ) (t : ℕ) :
    (∀ i, i < g.numPitches →
      colRel sps p0 i
        ((List.range t).foldl (fun st u => (List.range g.numPitches).foldl
          (decodeCell g θ d p0 sps u) st) ([], []))
        (colScanAux θ d (colOf g i) t)) ∧
    goodState p0 g.numPitches
      ((List.range t).foldl (fun st u => (List.range g.numPitches).foldl
        (decodeCell g θ d p0 sps u) st) ([], [])) := by
  induction t with
  | zero =>
      constructor
      · intro i hi
        exact ⟨rfl, rfl⟩
      · exact ⟨by simp, by simp, by simp⟩
  | succ t ih =>
      obtain ⟨ih1, ih2⟩ := ih
      rw [List.range_succ, List.foldl_append, List.foldl_cons, List.foldl_nil]
      constructor
      · intro i hi
        have := foldRow_rel g θ d p0 sps g.numPitches t (List.range g.numPitches)
          (List.nodup_range _) (fun j hj => List.mem_range.1 hj) _
          (fun i' => colScanAux θ d (colOf g i') t) ih1 i hi
        rw [if_pos (List.mem_range.2 hi)] at this
        exact this
      · exact foldRow_good g θ d p0 sps g.numPitches t (List.range g.numPitches)
          (fun j hj => List.mem_range.1 hj) _ ih2

theorem flushState_filter (g : Grid) (d : ℤ) (sps : ℚ) (p0 : ℤ)
    (cn : List (ℤ × ℕ × ℚ)) (evs : List PNote) (i : ℕ)
    (hnd : (cn.map Prod.fst).Nodup) :
    (flushState g d sps (cn, evs)).filter (fun n => n.pitch == p0 + (i : ℤ)) =
      evs.filter (fun n => n.pitch == p0 + (i : ℤ)) ++
        (colFlush d g.numTimeSteps (lookupNote (p0 + (i : ℤ)) cn)).map
          (runToNote sps (p0 + (i : ℤ))) := by
  induction cn generalizing evs with
  | nil => simp [flushState, lookupNote, colFlush]
  | cons e rest ih =>
      have hndr : (rest.map Prod.fst).Nodup := (List.nodup_cons.1 hnd).2
      have hstep : flushState g d sps (e :: rest, evs) =
          flushState g d sps (rest,
            if d ≤ (g.numTimeSteps : ℤ) - (e.2.1 : ℤ)
            then evs ++ [⟨pyInt (e.2.2 * 127), e.1, (e.2.1 : ℚ) * sps,
              (g.numTimeSteps : ℚ) * sps⟩]
            else evs) := by
        simp only [flushState, List.foldl_cons]
      rw [hstep, ih _ hndr]
      by_cases hkey : e.1 = p0 + (i : ℤ)
      · have hrest : lookupNote (p0 + (i : ℤ)) rest = none := by
          rw [lookupNote_eq_none_iff]
          rw [← hkey]
          exact (List.nodup_cons.1 hnd).1
        rw [hrest]
        have hlk : lookupNote (p0 + (i : ℤ)) (e :: rest) = some e.2 := by
          rw [lookupNote, if_pos hkey]
        rw [hlk]
        simp only [colFlush, List.map_nil, List.append_nil]
        by_cases hd : d ≤ (g.numTimeSteps : ℤ) - (e.2.1 : ℤ)
        · rw [if_pos hd, if_pos hd]
          rw [List.filter_append]
          congr 1
          simp [runToNote, hkey]
        · rw [if_neg hd, if_neg hd]
          simp
      · have hlk : lookupNote (p0 + (i : ℤ)) (e :: rest) =
            lookupNote (p0 + (i : ℤ)) rest := by
          rw [lookupNote, if_neg hkey]
        rw [hlk]
        congr 1
        by_cases hd : d ≤ (g.numTimeSteps : ℤ) - (e.2.1 : ℤ)
        · rw [if_pos hd, List.filter_append]
          have : (fun n => n.pitch == p0 + (i : ℤ))
              (⟨pyInt (e.2.2 * 127), e.1, (e.2.1 : ℚ) * sps,
                (g.numTimeSteps : ℚ) * sps⟩ : PNote) = false := by
            simp [hkey]
          simp [List.filter_cons, this]
        · rw [if_neg hd]

theorem flushState_pitches (g : Grid) (d : ℤ) (sps : ℚ) (p0 : ℤ) (P : ℕ)
    (cn : List (ℤ × ℕ × ℚ)) (evs : List PNote)
    (hkeys : ∀ e ∈ cn, ∃ j, j < P ∧ e.1 = p0 + (j : ℤ))
    (hevs : ∀ n ∈ evs, ∃ j, j < P ∧ n.pitch = p0 + (j : ℤ)) :
    ∀ n ∈ flushState g d sps (cn, evs), ∃ j, j < P ∧ n.pitch = p0 + (j : ℤ) := by
  induction cn generalizing evs with
  | nil => exact hevs
  | cons e rest ih =>
      have hstep : flushState g d sps (e :: rest, evs) =
          flushState g d sps (rest,
            if d ≤ (g.numTimeSteps : ℤ) - (e.2.1 : ℤ)
            then evs ++ [⟨pyInt (e.2.2 * 127), e.1, (e.2.1 : ℚ) * sps,
              (g.numTimeSteps : ℚ) * sps⟩]
            else evs) := by
        simp only [flushState, List.foldl_cons]
      rw [hstep]
      refine ih _ (fun e' he' => hkeys e' (List.mem_cons_of_mem e he')) ?_
      by_cases hd : d ≤ (g.numTimeSteps : ℤ) - (e.2.1 : ℤ)
      · rw [if_pos hd]
        intro n hn
        rcases List.mem_append.1 hn with hn | hn
        · exact hevs n hn
        · simp only [List.mem_singleton] at hn
          obtain ⟨j, hj, hkey⟩ := hkeys e (List.mem_cons_self e rest)
          exact ⟨j, hj, by rw [hn, hkey]⟩
      · rw [if_neg hd]
        exact hevs

/-! ### Full decoder characterization

The note list `pianoroll_tensor_to_midi` returns is, pitch by pitch, the
image of the accepted runs of the corresponding grid column. -/

theorem decode_eq_flush (g : Grid) (fs : ℚ) (pr : ℤ × ℤ) (θ : ℚ) (d : ℤ)
    (hfs : fs ≠ 0) :
    pianoroll_tensor_to_midi g fs pr θ d =
      some (flushState g d (1 / fs)
        ((List.range g.numTimeSteps).foldl
          (fun st u => (List.range g.numPitches).foldl
            (decodeCell g θ d pr.1 (1 / fs) u) st) ([], []))) := by
  rw [pianoroll_tensor_to_midi, if_neg hfs]
  rfl

theorem decode_filter_eq (g : Grid) (fs : ℚ) (pr : ℤ × ℤ) (θ : ℚ) (d : ℤ)
    (evs : List PNote) (hfs : fs ≠ 0)
    (hdec : pianoroll_tensor_to_midi g fs pr θ d = some evs)
    (i : ℕ) (hi : i < g.numPitches) :
    evs.filter (fun n => n.pitch == pr.1 + (i : ℤ)) =
      (colRuns θ d (colOf g i) g.numTimeSteps).map (runToNote (1 / fs) (pr.1 + (i : ℤ))) := by
  rw [decode_eq_flush g fs pr θ d hfs] at hdec
  obtain ⟨hrel, hgood⟩ := decodeScanAux_spec g θ d pr.1 (1 / fs) g.numTimeSteps
  obtain ⟨hrel1, hrel2⟩ := hrel i hi
  have hevs : evs = flushState g d (1 / fs)
      ((List.range g.numTimeSteps).foldl
        (fun st u => (List.range g.numPitches).foldl
          (decodeCell g θ d pr.1 (1 / fs) u) st) ([], [])) := by
    injection hdec.symm
  rw [hevs]
  rw [flushState_filter g d (1 / fs) pr.1 _ _ i hgood.1]
  rw [hrel2, hrel1]
  rw [colRuns, List.map_append]

theorem decode_pitch_mem (g : Grid) (fs : ℚ) (pr : ℤ × ℤ) (θ : ℚ) (d : ℤ)
    (evs : List PNote) (hfs : fs ≠ 0)
    (hdec : pianoroll_tensor_to_midi g fs pr θ d = some evs) :
    ∀ n ∈ evs, ∃ i, i < g.numPitches ∧ n.pitch = pr.1 + (i : ℤ) := by
  rw [decode_eq_flush g fs pr θ d hfs] at hdec
  obtain ⟨hrel, hgood⟩ := decodeScanAux_spec g θ d pr.1 (1 / fs) g.numTimeSteps
  have hevs : evs = flushState g d (1 / fs)
      ((List.range g.numTimeSteps).foldl
        (fun st u => (List.range g.numPitches).foldl
          (decodeCell g θ d pr.1 (1 / fs) u) st) ([], [])) := by
    injection hdec.symm
  rw [hevs]
  exact flushState_pitches g d (1 / fs) pr.1 g.numPitches _ _ hgood.2.1 hgood.2.2

theorem decode_mem_iff (g : Grid) (fs : ℚ) (pr : ℤ × ℤ) (θ : ℚ) (d : ℤ)
    (evs : List PNote) (hfs : fs ≠ 0)
    (hdec : pianoroll_tensor_to_midi g fs pr θ d = some evs) (n : PNote) :
    n ∈ evs ↔ ∃ i, i < g.numPitches ∧ ∃ s e, isMaxRun θ (colOf g i) g.numTimeSteps s e ∧
      d ≤ (e : ℤ) - (s : ℤ) ∧ n = runToNote (1 / fs) (pr.1 + (i : ℤ)) (s, e, g.val s i) := by
  constructor
  · intro hn
    obtain ⟨i, hi, hpitch⟩ := decode_pitch_mem g fs pr θ d evs hfs hdec n hn
    have hmem : n ∈ evs.filter (fun n => n.pitch == pr.1 + (i : ℤ)) :=
      List.mem_filter.2 ⟨hn, by simp [hpitch]⟩
    rw [decode_filter_eq g fs pr θ d evs hfs hdec i hi] at hmem
    obtain ⟨r, hr, hrn⟩ := List.mem_map.1 hmem
    obtain ⟨s, e, v⟩ := r
    obtain ⟨hmr, hd, hv⟩ := (colRuns_mem θ d (colOf g i) g.numTimeSteps s e v).1 hr
    refine ⟨i, hi, s, e, hmr, hd, ?_⟩
    rw [← hrn, hv]
    rfl
  · rintro ⟨i, hi, s, e, hmr, hd, hn⟩
    have hr : (s, e, g.val s i) ∈ colRuns θ d (colOf g i) g.numTimeSteps :=
      (colRuns_mem θ d (colOf g i) g.numTimeSteps s e (g.val s i)).2 ⟨hmr, hd, rfl⟩
    have hmem : n ∈ (colRuns θ d (colOf g i) g.numTimeSteps).map
        (runToNote (1 / fs) (pr.1 + (i : ℤ))) := by
      rw [hn]
      exact List.mem_map_of_mem _ hr
    rw [← decode_filter_eq g fs pr θ d evs hfs hdec i hi] at hmem
    exact (List.mem_filter.1 hmem).1

theorem foldl_writeNote_Q127 (fs : ℚ) (T : ℕ) (p0 p1 : ℤ) (iv : Bool)
    (l : List PNote) (g0 : ℕ → ℕ → ℚ) (t p : ℕ) (h0 : Q127 (g0 t p)) :
    Q127 ((l.foldl (writeNote fs T p0 p1 iv) g0) t p) := by
  induction l generalizing g0 with
  | nil => exact h0
  | cons n l ih =>
      rw [List.foldl_cons]
      apply ih
      rw [writeNote_val]
      by_cases hc : covers fs T p0 p1 n t p
      · rw [if_pos hc]
        obtain ⟨k, hk⟩ := h0
        have hval : Q127 (noteValue iv n) := by
          unfold noteValue Q127
          cases iv with
          | true => exact ⟨n.velocity, by norm_num⟩
          | false => exact ⟨127, by norm_num⟩
        obtain ⟨m, hm⟩ := hval
        rcases le_total (g0 t p) (noteValue iv n) with hle | hle
        · exact ⟨m, by rw [max_eq_right hle, hm]⟩
        · exact ⟨k, by rw [max_eq_left hle, hk]⟩
      · rw [if_neg hc]
        exact h0

/-! ### End-time and grid-size lemmas -/

theorem foldl_max_stop_le_iff (l : List PNote) (c q : ℚ) :
    l.foldl (fun a n => max a n.stop) c ≤ q ↔ c ≤ q ∧ ∀ n ∈ l, n.stop ≤ q := by
  induction l generalizing c with
  | nil => simp
  | cons n l ih =>
      rw [List.foldl_cons, ih]
      simp only [max_le_iff, List.mem_cons]
      constructor
      · rintro ⟨⟨hc, hn⟩, hrest⟩
        refine ⟨hc, ?_⟩
        rintro m (rfl | hm)
        · exact hn
        · exact hrest m hm
      · rintro ⟨hc, hall⟩
        exact ⟨⟨hc, hall n (Or.inl rfl)⟩, fun m hm => hall m (Or.inr hm)⟩

theorem getEndTime_le_iff (l : List PNote) (q : ℚ) :
    getEndTime l ≤ q ↔ 0 ≤ q ∧ ∀ n ∈ l, n.stop ≤ q :=
  foldl_max_stop_le_iff l 0 q

theorem getEndTime_nonneg (l : List PNote) : 0 ≤ getEndTime l :=
  ((getEndTime_le_iff l (getEndTime l)).1 le_rfl).1

theorem stop_le_getEndTime (l : List PNote) (n : PNote) (hn : n ∈ l) :
    n.stop ≤ getEndTime l :=
  ((getEndTime_le_iff l (getEndTime l)).1 le_rfl).2 n hn

theorem getEndTime_insert (E1 E2 : List PNote) (n : PNote) :
    getEndTime (E1 ++ n :: E2) = max (getEndTime (E1 ++ E2)) n.stop := by
  apply le_antisymm
  · rw [getEndTime_le_iff]
    refine ⟨le_max_of_le_left (getEndTime_nonneg _), ?_⟩
    intro m hm
    rcases List.mem_append.1 hm with hm | hm
    · exact le_max_of_le_left (stop_le_getEndTime _ m (List.mem_append_left _ hm))
    · rcases List.mem_cons.1 hm with hm | hm
      · rw [hm]
        exact le_max_right _ _
      · exact le_max_of_le_left (stop_le_getEndTime _ m (List.mem_append_right _ hm))
  · rw [max_le_iff]
    constructor
    · rw [getEndTime_le_iff]
      refine ⟨getEndTime_nonneg _, ?_⟩
      intro m hm
      apply stop_le_getEndTime
      rcases List.mem_append.1 hm with hm | hm
      · exact List.mem_append_left _ hm
      · exact List.mem_append_right _ (List.mem_cons_of_mem n hm)
    · exact stop_le_getEndTime _ n (List.mem_append_right _ (List.mem_cons_self n E2))

theorem getEndTime_eq_of_mem_iff (l l' : List PNote)
    (h : ∀ n : PNote, n ∈ l ↔ n ∈ l') : getEndTime l = getEndTime l' := by
  apply le_antisymm
  · rw [getEndTime_le_iff]
    exact ⟨getEndTime_nonneg l', fun n hn => stop_le_getEndTime l' n ((h n).1 hn)⟩
  · rw [getEndTime_le_iff]
    exact ⟨getEndTime_nonneg l, fun n hn => stop_le_getEndTime l n ((h n).2 hn)⟩

theorem foldl_max_stop_eq_init_or_mem (l : List PNote) (c : ℚ) :
    l.foldl (fun a n => max a n.stop) c = c ∨
      ∃ n ∈ l, l.foldl (fun a n => max a n.stop) c = n.stop := by
  induction l generalizing c with
  | nil => exact Or.inl rfl
  | cons n l ih =>
      rw [List.foldl_cons]
      rcases ih (max c n.stop) with h | ⟨m, hm, h⟩
      · rw [h]
        rcases le_total c n.stop with hc | hc
        · exact Or.inr ⟨n, List.mem_cons_self n l, max_eq_right hc⟩
        · exact Or.inl (max_eq_left hc)
      · exact Or.inr ⟨m, List.mem_cons_of_mem n hm, h⟩

theorem getEndTime_zero_or_mem (l : List PNote) :
    getEndTime l = 0 ∨ ∃ n ∈ l, getEndTime l = n.stop :=
  foldl_max_stop_eq_init_or_mem l 0

/-! ### Writes that cannot touch any cell, and growing the time axis -/

theorem writeNote_of_never_covers (fs : ℚ) (T : ℕ) (p0 p1 : ℤ) (iv : Bool)
    (g : ℕ → ℕ → ℚ) (n : PNote) (h : ∀ t p, ¬ covers fs T p0 p1 n t p) :
    writeNote fs T p0 p1 iv g n = g := by
  funext t p
  rw [writeNote_val, if_neg (h t p)]

theorem writeNote_out_of_range (fs : ℚ) (T : ℕ) (p0 p1 : ℤ) (iv : Bool)
    (g : ℕ → ℕ → ℚ) (n : PNote) (h : n.pitch < p0 ∨ p1 ≤ n.pitch) :
    writeNote fs T p0 p1 iv g n = g := by
  apply writeNote_of_never_covers
  intro t p hc
  rcases h with h | h
  · exact absurd hc.1.1 (not_le.2 h)
  · exact absurd hc.1.2 (not_lt.2 h)

theorem writeNote_zero_slice (fs : ℚ) (T : ℕ) (p0 p1 : ℤ) (iv : Bool)
    (g : ℕ → ℕ → ℚ) (n : PNote) (h : pyRound (n.start * fs) = pyRound (n.stop * fs)) :
    writeNote fs T p0 p1 iv g n = g := by
  apply writeNote_of_never_covers
  intro t p hc
  obtain ⟨-, -, -, h4, h5⟩ := hc
  rw [h] at h4
  omega

theorem writeNote_T_mono (fs : ℚ) (T T' : ℕ) (p0 p1 : ℤ) (iv : Bool)
    (g g' : ℕ → ℕ → ℚ) (n : PNote) (hgg : g = g') (hTT : T ≤ T')
    (he : pyRound (n.stop * fs) ≤ (T : ℤ)) :
    writeNote fs T p0 p1 iv g n = writeNote fs T' p0 p1 iv g' n := by
  subst hgg
  funext t p
  rw [writeNote_val, writeNote_val]
  have hequiv : covers fs T p0 p1 n t p ↔ covers fs T' p0 p1 n t p := by
    unfold covers
    have hTT' : (T : ℤ) ≤ (T' : ℤ) := by exact_mod_cast hTT
    constructor
    · rintro ⟨ha, hb, hc1, hc2, hc3⟩
      exact ⟨ha, hb, by omega, hc2, by omega⟩
    · rintro ⟨ha, hb, hc1, hc2, hc3⟩
      exact ⟨ha, hb, by omega, hc2, by omega⟩
  by_cases hc : covers fs T p0 p1 n t p
  · rw [if_pos hc, if_pos (hequiv.1 hc)]
  · rw [if_neg hc, if_neg (fun hh => hc (hequiv.2 hh))]

theorem foldl_writeNote_T_mono (fs : ℚ) (T T' : ℕ) (p0 p1 : ℤ) (iv : Bool)
    (l : List PNote) (g g' : ℕ → ℕ → ℚ) (hgg : g = g') (hTT : T ≤ T')
    (he : ∀ n ∈ l, pyRound (n.stop * fs) ≤ (T : ℤ)) :
    l.foldl (writeNote fs T p0 p1 iv) g = l.foldl (writeNote fs T' p0 p1 iv) g' := by
  induction l generalizing g g' with
  | nil => exact hgg
  | cons n l ih =>
      rw [List.foldl_cons, List.foldl_cons]
      exact ih _ _
        (writeNote_T_mono fs T T' p0 p1 iv g g' n hgg hTT (he n (List.mem_cons_self n l)))
        (fun m hm => he m (List.mem_cons_of_mem n hm))

/-! ### The single-interval column -/

theorem colScan_all_inactive (θ : ℚ) (d : ℤ) (col : ℕ → ℚ) (T : ℕ)
    (h : ∀ t, t < T → ¬ θ ≤ col t) :
    ∀ t, t ≤ T → colScanAux θ d col t = (none, []) := by
  intro t
  induction t with
  | zero =>
      intro _
      rfl
  | succ t ih =>
      intro ht
      have h1 := ih (by omega)
      simp [colScanAux, colStep, h1, h t (by omega)]

theorem colScan_interval_before (θ : ℚ) (d : ℤ) (col : ℕ → ℚ) (T s k : ℕ)
    (hsk : s + k ≤ T) (hiff : ∀ t, t < T → (θ ≤ col t ↔ s ≤ t ∧ t < s + k)) :
    ∀ t, t ≤ s → colScanAux θ d col t = (none, []) := by
  intro t
  induction t with
  | zero =>
      intro _
      rfl
  | succ t ih =>
      intro ht
      have h1 := ih (by omega)
      have hin : ¬ θ ≤ col t := by
        rw [hiff t (by omega)]
        omega
      simp [colScanAux, colStep, h1, hin]

theorem colScan_interval_inside (θ : ℚ) (d : ℤ) (col : ℕ → ℚ) (T s k : ℕ)
    (hsk : s + k ≤ T) (_hk : 1 ≤ k)
    (hiff : ∀ t, t < T → (θ ≤ col t ↔ s ≤ t ∧ t < s + k)) :
    ∀ t, s < t → t ≤ s + k → colScanAux θ d col t = (some (s, col s), []) := by
  intro t
  induction t with
  | zero =>
      intro h _
      omega
  | succ t ih =>
      intro hst htk
      rcases Nat.lt_or_ge s t with hlt | hge
      · have h1 := ih hlt (by omega)
        have hin : θ ≤ col t := by
          rw [hiff t (by omega)]
          omega
        simp [colScanAux, colStep, h1, hin]
      · have hts : t = s := by omega
        subst hts
        have h1 : colScanAux θ d col t = (none, []) :=
          colScan_interval_before θ d col T t k hsk hiff t le_rfl
        have hin : θ ≤ col t := by
          rw [hiff t (by omega)]
          omega
        simp [colScanAux, colStep, h1, hin]

theorem colScan_interval_after (θ : ℚ) (d : ℤ) (col : ℕ → ℚ) (T s k : ℕ)
    (hsk : s + k ≤ T) (hk : 1 ≤ k)
    (hiff : ∀ t, t < T → (θ ≤ col t ↔ s ≤ t ∧ t < s + k)) :
    ∀ t, s + k < t → t ≤ T →
      colScanAux θ d col t =
        (none, if d ≤ (k : ℤ) then [(s, s + k, col s)] else []) := by
  intro t
  induction t with
  | zero =>
      intro h _
      omega
  | succ t ih =>
      intro hkt htT
      rcases Nat.lt_or_ge (s + k) t with hlt | hge
      · have h1 := ih hlt (by omega)
        have hin : ¬ θ ≤ col t := by
          rw [hiff t (by omega)]
          omega
        simp [colScanAux, colStep, h1, hin]
      · have hts : t = s + k := by omega
        subst hts
        have h1 : colScanAux θ d col (s + k) = (some (s, col s), []) :=
          colScan_interval_inside θ d col T s k hsk hk hiff (s + k) (by omega) le_rfl
        have hin : ¬ θ ≤ col (s + k) := by
          rw [hiff (s + k) (by omega)]
          omega
        have hco : (d ≤ ((s + k : ℕ) : ℤ) - (s : ℤ)) ↔ d ≤ (k : ℤ) := by
          push_cast
          omega
        have hstep : colScanAux θ d col (s + k + 1) =
            (none, if d ≤ ((s + k : ℕ) : ℤ) - (s : ℤ)
              then [] ++ [(s, s + k, col s)] else []) := by
          show colStep θ d col (colScanAux θ d col (s + k)) (s + k) = _
          rw [h1]
          simp only [colStep]
          rw [if_neg hin]
        rw [hstep]
        congr 1
        rw [if_congr hco (List.nil_append _) rfl]

theorem colRuns_single_interval (θ : ℚ) (d : ℤ) (col : ℕ → ℚ) (T s k : ℕ)
    (hsk : s + k ≤ T)
    (hiff : ∀ t, t < T → (θ ≤ col t ↔ s ≤ t ∧ t < s + k)) :
    colRuns θ d col T = if 1 ≤ k ∧ d ≤ (k : ℤ) then [(s, s + k, col s)] else [] := by
  by_cases hk : 1 ≤ k
  · rcases eq_or_lt_of_le hsk with hT | hT
    · have h1 : colScanAux θ d col T = (some (s, col s), []) :=
        colScan_interval_inside θ d col T s k hsk hk hiff T (by omega) (by omega)
      unfold colRuns colFlush
      rw [h1]
      dsimp only
      have hco : (d ≤ (T : ℤ) - (s : ℤ)) ↔ d ≤ (k : ℤ) := by omega
      by_cases hd : d ≤ (k : ℤ)
      · rw [if_pos (hco.2 hd), if_pos ⟨hk, hd⟩, List.nil_append, ← hT]
      · rw [if_neg (fun hh => hd (hco.1 hh)), if_neg (fun hh => hd hh.2)]
        rfl
    · have h1 := colScan_interval_after θ d col T s k hsk hk hiff T hT le_rfl
      unfold colRuns colFlush
      rw [h1]
      dsimp only
      by_cases hd : d ≤ (k : ℤ)
      · rw [if_pos hd, if_pos ⟨hk, hd⟩, List.append_nil]
      · rw [if_neg hd, if_neg (fun hh => hd hh.2)]
        rfl
  · have h1 : colScanAux θ d col T = (none, []) := by
      apply colScan_all_inactive θ d col T ?_ T le_rfl
      intro t ht
      rw [hiff t ht]
      omega
    unfold colRuns colFlush
    rw [h1]
    rw [if_neg (fun hh => hk hh.1)]
    rfl

/-! ### Encoder success characterization -/

theorem encode_eq_some_iff (notes : List PNote) (fs : ℚ) (pr : ℤ × ℤ) (iv : Bool)
    (g : Grid) :
    midi_to_pianoroll_tensor notes fs pr iv = some g ↔
      pr.1 < pr.2 ∧ 0 ≤ ⌈getEndTime notes * fs⌉ ∧
      g = ⟨⌈getEndTime notes * fs⌉.toNat, (pr.2 - pr.1).toNat,
        notes.foldl (writeNote fs ⌈getEndTime notes * fs⌉.toNat pr.1 pr.2 iv)
          (fun _ _ => 0)⟩ := by
  simp only [midi_to_pianoroll_tensor]
  by_cases h1 : pr.2 - pr.1 ≤ 0
  · rw [if_pos h1]
    constructor
    · intro h
      exact absurd h (by simp)
    · rintro ⟨hlt, -, -⟩
      omega
  · rw [if_neg h1]
    by_cases h2 : ⌈getEndTime notes * fs⌉ < 0
    · rw [if_pos h2]
      constructor
      · intro h
        exact absurd h (by simp)
      · rintro ⟨-, hge, -⟩
        omega
    · rw [if_neg h2]
      simp only [Option.some.injEq]
      constructor
      · intro h
        exact ⟨by omega, by omega, h.symm⟩
      · rintro ⟨-, -, h⟩
        exact h.symm

/-! ### Claim C8 -/

/-- C8: for every pitch_range with `pitch_max ≤ pitch_min`,
`midi_to_pianoroll_tensor` returns the failure value `None` (no exception
escapes to the caller), and the rejection happens before any grid content is
produced (the `num_pitches <= 0` test precedes `np.zeros`). -/
theorem C8_empty_range_rejected (notes : List PNote) (fs : ℚ) (p0 p1 : ℤ)
    (iv : Bool) (h : p1 ≤ p0) :
    midi_to_pianoroll_tensor notes fs (p0, p1) iv = none := by
  simp only [midi_to_pianoroll_tensor]
  rw [if_pos (by omega : (p0, p1).2 - (p0, p1).1 ≤ 0)]

/-- Witness for C8 at a concrete input: the empty range `(60, 60)`. -/
theorem C8_empty_range_rejected_witness :
    midi_to_pianoroll_tensor [⟨100, 60, 0, 1⟩] 4 (60, 60) true = none :=
  C8_empty_range_rejected [⟨100, 60, 0, 1⟩] 4 60 60 true le_rfl

/-! ### Claim C2 -/

/-- C2 counterexample: a decode call whose inputs are malformed in three of
the claimed ways at once — inverted pitch_range `(5, 3)`, negative threshold
`-1`, negative minimum duration `-1` — is not rejected: it returns an
ordinary event list, not a failure result. -/
theorem C2_counterexample :
    pianoroll_tensor_to_midi ⟨1, 1, fun _ _ => 0⟩ 4 (5, 3) (-1) (-1) =
      some [⟨0, 5, 0, 1/4⟩] := by
  with_unfolding_all decide

/-- C2 (amended): `pianoroll_tensor_to_midi` performs no validation of
pitch_range, grid shape, threshold or minimum duration; the only input it
fails on, and the only failure result it ever returns, is `sample_rate = 0`
(the `ZeroDivisionError` from `seconds_per_step = 1.0 / fs`, caught and
returned as `None` before any event is produced). -/
theorem C2_decode_failure_iff (g : Grid) (fs : ℚ) (pr : ℤ × ℤ) (θ : ℚ) (d : ℤ) :
    pianoroll_tensor_to_midi g fs pr θ d = none ↔ fs = 0 := by
  simp only [pianoroll_tensor_to_midi]
  by_cases h : fs = 0
  · simp [h]
  · simp [h]

/-! ### Claim C1 -/

/-- C1 counterexample: a run whose onset intensity is `1/2` decodes to
velocity `int(0.5 * 127) = 63`, while the claimed `round(0.5 * 127)` is 64. -/
theorem C1_counterexample :
    pianoroll_tensor_to_midi ⟨1, 1, fun _ _ => 1/2⟩ 4 (60, 62) (1/10) 1 =
        some [⟨63, 60, 0, 1/4⟩] ∧
      (63 : ℤ) ≠ round ((1/2 : ℚ) * 127) := by
  constructor
  · with_unfolding_all decide
  · have : round ((1/2 : ℚ) * 127) = 64 := by
      norm_num [round_eq]
    rw [this]
    omega

/-- C1 (amended): for every decoded run that passes the minimum-duration
filter, the emitted note's velocity is `int(recorded_intensity * 127)` —
recorded_intensity × 127 truncated toward zero (the floor, for the
non-negative intensities in [0,1]) — not `round(recorded_intensity × 127)`;
the recorded intensity is the grid value observed at the run's onset
(the inactive → active transition). -/
theorem C1_velocity_truncated_onset (g : Grid) (fs : ℚ) (p0 p1 : ℤ) (θ : ℚ)
    (d : ℤ) (evs : List PNote) (hfs : fs ≠ 0)
    (hdec : pianoroll_tensor_to_midi g fs (p0, p1) θ d = some evs) :
    ∀ n ∈ evs, ∃ i s, i < g.numPitches ∧ n.pitch = p0 + (i : ℤ) ∧
      s < g.numTimeSteps ∧ θ ≤ g.val s i ∧ (s = 0 ∨ g.val (s - 1) i < θ) ∧
      n.start = (s : ℚ) * (1 / fs) ∧ n.velocity = pyInt (g.val s i * 127) := by
  intro n hn
  rw [decode_mem_iff g fs (p0, p1) θ d evs hfs hdec n] at hn
  obtain ⟨i, hi, s, e, hmr, hd, hn⟩ := hn
  obtain ⟨h1, h2, h3, h4, h5⟩ := hmr
  refine ⟨i, s, hi, ?_, by omega, h3 s le_rfl h1, h4, ?_, ?_⟩
  · rw [hn]
    rfl
  · rw [hn]
    rfl
  · rw [hn]
    rfl

/-- Witness for C1's amended theorem at the counterexample grid. -/
theorem C1_velocity_truncated_onset_witness :
    ∃ (i s : ℕ), i < 1 ∧ (60 : ℤ) = 60 + (i : ℤ) ∧ s < 1 ∧ (1/10 : ℚ) ≤ 1/2 ∧
      (s = 0 ∨ (1/2 : ℚ) < 1/10) ∧ (0 : ℚ) = (s : ℚ) * (1/4) ∧
      (63 : ℤ) = pyInt ((1/2 : ℚ) * 127) :=
  C1_velocity_truncated_onset ⟨1, 1, fun _ _ => 1/2⟩ 4 60 62 (1/10) 1
    [⟨63, 60, 0, 1/4⟩] (by norm_num) (by with_unfolding_all decide)
    ⟨63, 60, 0, 1/4⟩ (List.mem_singleton.2 rfl)

/-! ### Claim C10 -/

/-- C10: every note `pianoroll_tensor_to_midi` emits has end_time strictly
greater than start_time, with duration at least one time step `1 / fs`, for
every grid and every note_duration_steps (including zero and negative
values): a run is only closed or flushed at a step strictly after its onset
step. -/
theorem C10_positive_duration (g : Grid) (fs : ℚ) (pr : ℤ × ℤ) (θ : ℚ) (d : ℤ)
    (evs : List PNote) (hfs : 0 < fs)
    (hdec : pianoroll_tensor_to_midi g fs pr θ d = some evs) :
    ∀ n ∈ evs, n.start < n.stop ∧ 1 / fs ≤ n.stop - n.start := by
  intro n hn
  rw [decode_mem_iff g fs pr θ d evs (ne_of_gt hfs) hdec n] at hn
  obtain ⟨i, hi, s, e, hmr, hd, hn⟩ := hn
  have h1 : s < e := hmr.1
  have hsps : 0 < 1 / fs := by positivity
  have hcast : (s : ℚ) + 1 ≤ (e : ℚ) := by exact_mod_cast h1
  rw [hn]
  unfold runToNote
  dsimp only
  constructor
  · have : (s : ℚ) < (e : ℚ) := by linarith
    exact mul_lt_mul_of_pos_right this hsps
  · have hone : (1 : ℚ) ≤ (e : ℚ) - s := by linarith
    calc 1 / fs = 1 * (1 / fs) := (one_mul _).symm
    _ ≤ ((e : ℚ) - s) * (1 / fs) := mul_le_mul_of_nonneg_right hone (le_of_lt hsps)
    _ = (e : ℚ) * (1 / fs) - (s : ℚ) * (1 / fs) := by ring

/-- Witness for C10 on the concrete `[0,1,1,0]` column scenario. -/
theorem C10_positive_duration_witness :
    (1/4 : ℚ) < 3/4 ∧ (1/4 : ℚ) ≤ 3/4 - 1/4 :=
  C10_positive_duration ⟨4, 2, fun t p => if p = 0 ∧ (t = 1 ∨ t = 2) then 1 else 0⟩
    4 (60, 62) (1/2) 1 [⟨127, 60, 1/4, 3/4⟩] (by norm_num)
    (by with_unfolding_all decide) ⟨127, 60, 1/4, 3/4⟩ (List.mem_singleton.2 rfl)

/-! ### Claim C5 -/

/-- C5: a pitch whose final maximal run of cells `≥ threshold` reaches the
last time step of the grid (subject to the minimum-duration filter) yields a
note whose end time is exactly the grid's total duration
`num_time_steps / fs`, not any earlier time. -/
theorem C5_flush_at_end (g : Grid) (fs : ℚ) (p0 p1 : ℤ) (θ : ℚ) (d : ℤ)
    (evs : List PNote) (i s : ℕ) (hfs : fs ≠ 0)
    (hdec : pianoroll_tensor_to_midi g fs (p0, p1) θ d = some evs)
    (hi : i < g.numPitches) (hs : s < g.numTimeSteps)
    (hact : ∀ t, s ≤ t → t < g.numTimeSteps → θ ≤ g.val t i)
    (hb : s = 0 ∨ g.val (s - 1) i < θ)
    (hd : d ≤ (g.numTimeSteps : ℤ) - (s : ℤ)) :
    (⟨pyInt (g.val s i * 127), p0 + (i : ℤ), (s : ℚ) * (1 / fs),
      (g.numTimeSteps : ℚ) * (1 / fs)⟩ : PNote) ∈ evs := by
  rw [decode_mem_iff g fs (p0, p1) θ d evs hfs hdec]
  exact ⟨i, hi, s, g.numTimeSteps, ⟨hs, le_rfl, hact, hb, Or.inl rfl⟩, hd, rfl⟩

/-- Witness for C5: a fully active one-pitch column of two steps flushes a
note ending at the grid's total duration `2 * (1/4)`. -/
theorem C5_flush_at_end_witness :
    (⟨pyInt ((1 : ℚ) * 127), (60 : ℤ) + ((0 : ℕ) : ℤ), ((0 : ℕ) : ℚ) * (1 / 4),
      ((2 : ℕ) : ℚ) * (1 / 4)⟩ : PNote) ∈ [(⟨127, 60, 0, 1/2⟩ : PNote)] :=
  C5_flush_at_end ⟨2, 1, fun _ _ => 1⟩ 4 60 62 (1/2) 1 [⟨127, 60, 0, 1/2⟩] 0 0
    (by norm_num) (by with_unfolding_all decide) (by norm_num) (by norm_num)
    (fun t h1 h2 => by norm_num) (Or.inl rfl) (by norm_num)

/-! ### Inserting a note that writes nothing -/

theorem encode_insert_noop (E1 E2 : List PNote) (n : PNote) (fs : ℚ) (p0 p1 : ℤ)
    (iv : Bool) (g : Grid) (hfs : 0 ≤ fs)
    (henc : midi_to_pianoroll_tensor (E1 ++ E2) fs (p0, p1) iv = some g)
    (hnoop : ∀ (T : ℕ) (gf : ℕ → ℕ → ℚ), writeNote fs T p0 p1 iv gf n = gf) :
    ∃ g', midi_to_pianoroll_tensor (E1 ++ n :: E2) fs (p0, p1) iv = some g' ∧
      g'.val = g.val ∧ g'.numPitches = g.numPitches := by
  rw [encode_eq_some_iff] at henc
  obtain ⟨hp01, hT1, hg⟩ := henc
  have he12 : getEndTime (E1 ++ E2) ≤ getEndTime (E1 ++ n :: E2) := by
    rw [getEndTime_insert]
    exact le_max_left _ _
  have hT12 : ⌈getEndTime (E1 ++ E2) * fs⌉ ≤ ⌈getEndTime (E1 ++ n :: E2) * fs⌉ :=
    Int.ceil_le_ceil (mul_le_mul_of_nonneg_right he12 hfs)
  refine ⟨⟨⌈getEndTime (E1 ++ n :: E2) * fs⌉.toNat, ((p0, p1).2 - (p0, p1).1).toNat,
    (E1 ++ n :: E2).foldl
      (writeNote fs ⌈getEndTime (E1 ++ n :: E2) * fs⌉.toNat p0 p1 iv) (fun _ _ => 0)⟩,
    ?_, ?_, ?_⟩
  · rw [encode_eq_some_iff]
    exact ⟨hp01, by omega, rfl⟩
  · subst hg
    dsimp only
    rw [List.foldl_append, List.foldl_cons, hnoop, ← List.foldl_append]
    refine (foldl_writeNote_T_mono fs ⌈getEndTime (E1 ++ E2) * fs⌉.toNat
      ⌈getEndTime (E1 ++ n :: E2) * fs⌉.toNat p0 p1 iv (E1 ++ E2)
      (fun _ _ => 0) (fun _ _ => 0) rfl (by omega) ?_).symm
    intro m hm
    calc pyRound (m.stop * fs) ≤ ⌈m.stop * fs⌉ := pyRound_le_ceil _
    _ ≤ ⌈getEndTime (E1 ++ E2) * fs⌉ :=
        Int.ceil_le_ceil (mul_le_mul_of_nonneg_right (stop_le_getEndTime _ m hm) hfs)
    _ = (⌈getEndTime (E1 ++ E2) * fs⌉.toNat : ℤ) := by omega
  · subst hg
    rfl

/-! ### Claim C7 -/

/-- C7: an event whose pitch lies outside `[pitch_min, pitch_max)`, inserted
anywhere into the note list, leaves every grid cell of the encoding
unchanged (the event never appears in the encoded grid) and does not make
`midi_to_pianoroll_tensor` fail.  (Such an event can still extend the
number of all-zero trailing rows, since `get_end_time` ranges over all
notes; every cell value is unchanged.) -/
theorem C7_range_exclusion (E1 E2 : List PNote) (n : PNote) (fs : ℚ) (p0 p1 : ℤ)
    (iv : Bool) (g : Grid) (hfs : 0 ≤ fs)
    (hn : n.pitch < p0 ∨ p1 ≤ n.pitch)
    (henc : midi_to_pianoroll_tensor (E1 ++ E2) fs (p0, p1) iv = some g) :
    ∃ g', midi_to_pianoroll_tensor (E1 ++ n :: E2) fs (p0, p1) iv = some g' ∧
      g'.val = g.val ∧ g'.numPitches = g.numPitches :=
  encode_insert_noop E1 E2 n fs p0 p1 iv g hfs henc
    (fun T gf => writeNote_out_of_range fs T p0 p1 iv gf n hn)

/-- Witness for C7: adding an out-of-range note (pitch 10) to a one-note
list does not change any cell of the encoding. -/
theorem C7_range_exclusion_witness :
    ∃ g', midi_to_pianoroll_tensor ([(⟨100, 60, 0, 1⟩ : PNote)] ++
        (⟨90, 10, 0, 2⟩ : PNote) :: []) 4 (60, 62) true = some g' ∧
      g'.val = (Grid.mk (⌈getEndTime [(⟨100, 60, 0, 1⟩ : PNote)] * 4⌉.toNat)
        (((62 : ℤ) - 60).toNat)
        ([(⟨100, 60, 0, 1⟩ : PNote)].foldl
          (writeNote 4 (⌈getEndTime [(⟨100, 60, 0, 1⟩ : PNote)] * 4⌉.toNat) 60 62 true)
          (fun _ _ => 0))).val ∧
      g'.numPitches = (Grid.mk (⌈getEndTime [(⟨100, 60, 0, 1⟩ : PNote)] * 4⌉.toNat)
        (((62 : ℤ) - 60).toNat)
        ([(⟨100, 60, 0, 1⟩ : PNote)].foldl
          (writeNote 4 (⌈getEndTime [(⟨100, 60, 0, 1⟩ : PNote)] * 4⌉.toNat) 60 62 true)
          (fun _ _ => 0))).numPitches :=
  C7_range_exclusion [⟨100, 60, 0, 1⟩] [] ⟨90, 10, 0, 2⟩ 4 60 62 true _
    (by norm_num) (Or.inl (by norm_num)) (by with_unfolding_all rfl)

/-! ### Claim C9 -/

/-- C9: an event whose quantized start and end steps coincide
(`start_step == end_step`), inserted anywhere into the note list, writes
nothing: every grid cell of the encoding is the same as if the event were
absent, by the half-open slice `[start_step, min(end_step, T))`. -/
theorem C9_zero_duration_event (E1 E2 : List PNote) (n : PNote) (fs : ℚ)
    (p0 p1 : ℤ) (iv : Bool) (g : Grid) (hfs : 0 ≤ fs)
    (hn : pyRound (n.start * fs) = pyRound (n.stop * fs))
    (henc : midi_to_pianoroll_tensor (E1 ++ E2) fs (p0, p1) iv = some g) :
    ∃ g', midi_to_pianoroll_tensor (E1 ++ n :: E2) fs (p0, p1) iv = some g' ∧
      g'.val = g.val ∧ g'.numPitches = g.numPitches :=
  encode_insert_noop E1 E2 n fs p0 p1 iv g hfs henc
    (fun T gf => writeNote_zero_slice fs T p0 p1 iv gf n hn)

/-- Witness for C9: a note lasting from 0.05 s to 0.07 s at `fs = 4`
quantizes to `start_step = end_step = 0` and contributes nothing. -/
theorem C9_zero_duration_event_witness :
    ∃ g', midi_to_pianoroll_tensor ([(⟨100, 60, 0, 1⟩ : PNote)] ++
        (⟨90, 61, 1/20, 7/100⟩ : PNote) :: []) 4 (60, 62) true = some g' ∧
      g'.val = (Grid.mk (⌈getEndTime [(⟨100, 60, 0, 1⟩ : PNote)] * 4⌉.toNat)
        (((62 : ℤ) - 60).toNat)
        ([(⟨100, 60, 0, 1⟩ : PNote)].foldl
          (writeNote 4 (⌈getEndTime [(⟨100, 60, 0, 1⟩ : PNote)] * 4⌉.toNat) 60 62 true)
          (fun _ _ => 0))).val ∧
      g'.numPitches = (Grid.mk (⌈getEndTime [(⟨100, 60, 0, 1⟩ : PNote)] * 4⌉.toNat)
        (((62 : ℤ) - 60).toNat)
        ([(⟨100, 60, 0, 1⟩ : PNote)].foldl
          (writeNote 4 (⌈getEndTime [(⟨100, 60, 0, 1⟩ : PNote)] * 4⌉.toNat) 60 62 true)
          (fun _ _ => 0))).numPitches :=
  C9_zero_duration_event [⟨100, 60, 0, 1⟩] [] ⟨90, 61, 1/20, 7/100⟩ 4 60 62 true _
    (by norm_num) (by with_unfolding_all decide) (by with_unfolding_all rfl)

/-! ### Claim C3 -/

/-- C3: for two events at the same in-range pitch whose quantized step
intervals overlap, with written intensities `a = vel1/127 < b = vel2/127`,
every encoded grid cell in the overlap holds exactly `b` — the elementwise
maximum of the written intensities, never the sum `a + b` — in either order
of the two events in the encoder's input list (the event collection is
unordered, so both orders must and do give the same cell). -/
theorem C3_maximum_merge (n1 n2 : PNote) (l : List PNote) (fs : ℚ) (p0 p1 : ℤ)
    (g : Grid) (t : ℕ) (hl : l = [n1, n2] ∨ l = [n2, n1])
    (henc : midi_to_pianoroll_tensor l fs (p0, p1) true = some g)
    (hp : n2.pitch = n1.pitch) (hr : p0 ≤ n1.pitch ∧ n1.pitch < p1)
    (ha0 : 0 ≤ (n1.velocity : ℚ) / 127)
    (hab : (n1.velocity : ℚ) / 127 < (n2.velocity : ℚ) / 127)
    (hov1 : pyRound (n1.start * fs) ≤ (t : ℤ) ∧
      (t : ℤ) < min (pyRound (n1.stop * fs)) (g.numTimeSteps : ℤ))
    (hov2 : pyRound (n2.start * fs) ≤ (t : ℤ) ∧
      (t : ℤ) < min (pyRound (n2.stop * fs)) (g.numTimeSteps : ℤ)) :
    g.val t ((n1.pitch - p0).toNat) = (n2.velocity : ℚ) / 127 := by
  rw [encode_eq_some_iff] at henc
  obtain ⟨hp01, hT, hg⟩ := henc
  have hcov1 : covers fs g.numTimeSteps p0 p1 n1 t ((n1.pitch - p0).toNat) :=
    ⟨hr, rfl, by omega, hov1.1, hov1.2⟩
  have hcov2 : covers fs g.numTimeSteps p0 p1 n2 t ((n1.pitch - p0).toNat) := by
    refine ⟨?_, ?_, by omega, hov2.1, hov2.2⟩
    · rw [hp]
      exact hr
    · rw [hp]
  have hb0 : 0 ≤ (n2.velocity : ℚ) / 127 := le_trans ha0 (le_of_lt hab)
  have hTv : g.numTimeSteps = ⌈getEndTime l * fs⌉.toNat := by
    rw [hg]
  rw [hTv] at hcov1 hcov2
  conv_lhs => rw [hg]
  dsimp only
  have hval1 : noteValue true n1 = (n1.velocity : ℚ) / 127 := rfl
  have hval2 : noteValue true n2 = (n2.velocity : ℚ) / 127 := rfl
  rcases hl with rfl | rfl
  · -- smaller intensity written first, larger second
    rw [List.foldl_cons, List.foldl_cons, List.foldl_nil]
    rw [writeNote_val, if_pos hcov2]
    rw [writeNote_val, if_pos hcov1]
    rw [hval1, hval2]
    rw [max_eq_right ha0, max_eq_right (le_of_lt hab)]
  · -- larger intensity written first, smaller second: still the maximum,
    -- not the last write
    rw [List.foldl_cons, List.foldl_cons, List.foldl_nil]
    rw [writeNote_val, if_pos hcov1]
    rw [writeNote_val, if_pos hcov2]
    rw [hval1, hval2]
    rw [max_eq_right hb0, max_eq_left (le_of_lt hab)]

/-- Witness for C3 on the spec's overlap scenario with the larger-intensity
event first in the list: events `(start 0.5, end 1.5, vel 100)` then
`(start 0, end 1, vel 50)` at pitch 60, `fs = 2`: the cell at step 1 holds
`100/127` although `50/127` was written last. -/
theorem C3_maximum_merge_witness :
    (Grid.mk (⌈getEndTime [(⟨100, 60, 1/2, 3/2⟩ : PNote), ⟨50, 60, 0, 1⟩] * 2⌉.toNat)
      (((62 : ℤ) - 60).toNat)
      ([(⟨100, 60, 1/2, 3/2⟩ : PNote), ⟨50, 60, 0, 1⟩].foldl
        (writeNote 2
          (⌈getEndTime [(⟨100, 60, 1/2, 3/2⟩ : PNote), ⟨50, 60, 0, 1⟩] * 2⌉.toNat)
          60 62 true)
        (fun _ _ => 0))).val 1 (((60 : ℤ) - 60).toNat) = (100 : ℚ) / 127 :=
  C3_maximum_merge ⟨50, 60, 0, 1⟩ ⟨100, 60, 1/2, 3/2⟩
    [⟨100, 60, 1/2, 3/2⟩, ⟨50, 60, 0, 1⟩] 2 60 62 _ 1
    (Or.inr rfl) (by with_unfolding_all rfl) rfl ⟨by norm_num, by norm_num⟩
    (by norm_num) (by norm_num)
    ⟨by with_unfolding_all decide, by with_unfolding_all decide⟩
    ⟨by with_unfolding_all decide, by with_unfolding_all decide⟩

/-! ### Claim C4 -/

/-- C4: with minimum duration `d ≥ 1`, a pitch whose active cells form one
maximal contiguous run of exactly `d - 1` cells decodes to zero note events
for that pitch, and one of exactly `d` cells decodes to exactly one note
event spanning that run. -/
theorem C4_min_duration_filter :
    (∀ (g : Grid) (fs : ℚ) (p0 p1 : ℤ) (θ : ℚ) (d : ℤ) (evs : List PNote)
      (i s k : ℕ), fs ≠ 0 → pianoroll_tensor_to_midi g fs (p0, p1) θ d = some evs →
      i < g.numPitches → s + k ≤ g.numTimeSteps → 1 ≤ d → (k : ℤ) = d - 1 →
      (∀ t, t < g.numTimeSteps → (θ ≤ g.val t i ↔ s ≤ t ∧ t < s + k)) →
      evs.filter (fun n => n.pitch == p0 + (i : ℤ)) = []) ∧
    (∀ (g : Grid) (fs : ℚ) (p0 p1 : ℤ) (θ : ℚ) (d : ℤ) (evs : List PNote)
      (i s k : ℕ), fs ≠ 0 → pianoroll_tensor_to_midi g fs (p0, p1) θ d = some evs →
      i < g.numPitches → s + k ≤ g.numTimeSteps → 1 ≤ d → (k : ℤ) = d →
      (∀ t, t < g.numTimeSteps → (θ ≤ g.val t i ↔ s ≤ t ∧ t < s + k)) →
      evs.filter (fun n => n.pitch == p0 + (i : ℤ)) =
        [⟨pyInt (g.val s i * 127), p0 + (i : ℤ), (s : ℚ) * (1 / fs),
          ((s + k : ℕ) : ℚ) * (1 / fs)⟩]) := by
  constructor
  · intro g fs p0 p1 θ d evs i s k hfs hdec hi hsk hd1 hkd hiff
    rw [decode_filter_eq g fs (p0, p1) θ d evs hfs hdec i hi]
    rw [colRuns_single_interval θ d (colOf g i) g.numTimeSteps s k hsk hiff]
    rw [if_neg (by omega : ¬ (1 ≤ k ∧ d ≤ (k : ℤ)))]
    rfl
  · intro g fs p0 p1 θ d evs i s k hfs hdec hi hsk hd1 hkd hiff
    rw [decode_filter_eq g fs (p0, p1) θ d evs hfs hdec i hi]
    rw [colRuns_single_interval θ d (colOf g i) g.numTimeSteps s k hsk hiff]
    rw [if_pos ⟨by omega, by omega⟩]
    rfl

/-- Witness for C4: over the one-pitch column `[0,1,0]` (a run of one
cell), minimum duration 2 yields no note and minimum duration 1 yields
exactly the note spanning steps `[1, 2)`. -/
theorem C4_min_duration_filter_witness :
    ([] : List PNote).filter (fun n => n.pitch == (60 : ℤ) + ((0 : ℕ) : ℤ)) = [] ∧
    [(⟨127, 60, 1/4, 1/2⟩ : PNote)].filter
        (fun n => n.pitch == (60 : ℤ) + ((0 : ℕ) : ℤ)) =
      [⟨pyInt ((1 : ℚ) * 127), 60 + ((0 : ℕ) : ℤ), ((1 : ℕ) : ℚ) * (1 / 4),
        ((1 + 1 : ℕ) : ℚ) * (1 / 4)⟩] :=
  ⟨C4_min_duration_filter.1 ⟨3, 1, fun u _ => if u = 1 then 1 else 0⟩ 4 60 61 (1/2) 2
      [] 0 1 1 (by norm_num) (by with_unfolding_all decide) (by norm_num)
      (by norm_num) (by norm_num) (by norm_num) (by with_unfolding_all decide),
    C4_min_duration_filter.2 ⟨3, 1, fun u _ => if u = 1 then 1 else 0⟩ 4 60 61 (1/2) 1
      [⟨127, 60, 1/4, 1/2⟩] 0 1 1 (by norm_num) (by with_unfolding_all decide)
      (by norm_num) (by norm_num) (by norm_num) (by norm_num)
      (by with_unfolding_all decide)⟩

/-! ### Round-trip infrastructure

A note produced by the decoder has `start = s/fs` and `end = e/fs` for
integer steps, so re-quantizing it recovers `s` and `e` exactly; and a cell
value of the form `k/127` survives `int(value * 127) / 127` unchanged. -/

theorem runToNote_start_mul (fs : ℚ) (hfs : fs ≠ 0) (pq : ℤ) (s e : ℕ) (v : ℚ) :
    pyRound ((runToNote (1 / fs) pq (s, e, v)).start * fs) = s ∧
    pyRound ((runToNote (1 / fs) pq (s, e, v)).stop * fs) = e := by
  unfold runToNote
  dsimp only
  have h1 : 1 / fs * fs = 1 := one_div_mul_cancel hfs
  constructor
  · rw [mul_assoc, h1, mul_one, pyRound_natCast]
  · rw [mul_assoc, h1, mul_one, pyRound_natCast]

theorem covers_runToNote (fs : ℚ) (hfs : fs ≠ 0) (T2 : ℕ) (p0 p1 : ℤ)
    (i s e : ℕ) (v : ℚ) (hi : (i : ℤ) < p1 - p0) (hse : s < e) (heT : e ≤ T2)
    (t p : ℕ) :
    covers fs T2 p0 p1 (runToNote (1 / fs) (p0 + (i : ℤ)) (s, e, v)) t p ↔
      p = i ∧ s ≤ t ∧ t < e := by
  obtain ⟨hst, hsp⟩ := runToNote_start_mul fs hfs (p0 + (i : ℤ)) s e v
  unfold covers
  rw [hst, hsp]
  have hpitch : (runToNote (1 / fs) (p0 + (i : ℤ)) (s, e, v)).pitch = p0 + (i : ℤ) := rfl
  rw [hpitch]
  have hidx : ((p0 + (i : ℤ)) - p0).toNat = i := by omega
  rw [hidx]
  constructor
  · rintro ⟨-, hp, -, hst', hte⟩
    exact ⟨hp, by omega, by omega⟩
  · rintro ⟨hp, hst', hte⟩
    refine ⟨⟨by omega, by omega⟩, hp, by omega, by omega, by omega⟩

theorem Q127_pyInt_exact (x : ℚ) (hx : Q127 x) (hx0 : 0 ≤ x) :
    (pyInt (x * 127) : ℚ) / 127 = x := by
  obtain ⟨k, rfl⟩ := hx
  have h : (k : ℚ) / 127 * 127 = (k : ℚ) := by
    field_simp
  rw [h, pyInt_intCast]

theorem encode_val_nonneg (notes : List PNote) (fs : ℚ) (pr : ℤ × ℤ) (iv : Bool)
    (g : Grid) (h : midi_to_pianoroll_tensor notes fs pr iv = some g) (t p : ℕ) :
    0 ≤ g.val t p := by
  rw [encode_eq_some_iff] at h
  obtain ⟨-, -, hg⟩ := h
  subst hg
  exact foldl_writeNote_init_le _ _ _ _ _ _ _ t p

theorem encode_val_Q127 (notes : List PNote) (fs : ℚ) (pr : ℤ × ℤ) (iv : Bool)
    (g : Grid) (h : midi_to_pianoroll_tensor notes fs pr iv = some g) (t p : ℕ) :
    Q127 (g.val t p) := by
  rw [encode_eq_some_iff] at h
  obtain ⟨-, -, hg⟩ := h
  subst hg
  exact foldl_writeNote_Q127 _ _ _ _ _ _ _ t p ⟨0, by norm_num⟩

theorem encode_val_le_one (notes : List PNote) (fs : ℚ) (pr : ℤ × ℤ)
    (g : Grid) (h : midi_to_pianoroll_tensor notes fs pr false = some g) (t p : ℕ) :
    g.val t p ≤ 1 := by
  rw [encode_eq_some_iff] at h
  obtain ⟨-, -, hg⟩ := h
  subst hg
  apply (foldl_writeNote_le_iff _ _ _ _ _ _ _ t p 1).2
  refine ⟨by norm_num, ?_⟩
  intro n _ _
  unfold noteValue
  norm_num

theorem noteValue_nonneg_of (iv : Bool) (sps : ℚ) (pq : ℤ) (s e : ℕ) (v : ℚ)
    (hv : 0 ≤ v) : 0 ≤ noteValue iv (runToNote sps pq (s, e, v)) := by
  cases iv with
  | false => norm_num [noteValue]
  | true =>
      show (0 : ℚ) ≤ (pyInt (v * 127) : ℚ) / 127
      have := pyInt_nonneg (v * 127) (by positivity)
      positivity

/-- The value of a cell of the re-encoded grid `encode(D)`, when `D` is a
family of notes carved from disjoint runs `R` at exact steps: a covered cell
holds the value of the unique covering run's note, an uncovered cell is 0. -/
theorem foldl_writeNote_run_val (fs : ℚ) (hfs : 0 < fs) (T2 : ℕ) (p0 p1 : ℤ)
    (iv : Bool) (P : ℕ) (hP : P = (p1 - p0).toNat) (hp01 : p0 < p1)
    (D : List PNote) (R : ℕ → ℕ → ℕ → Prop) (w : ℕ → ℕ → ℚ)
    (Hw : ∀ i s, 0 ≤ w i s)
    (H1 : ∀ n ∈ D, ∃ i s e, i < P ∧ s < e ∧ e ≤ T2 ∧ R i s e ∧
      n = runToNote (1 / fs) (p0 + (i : ℤ)) (s, e, w i s))
    (H2 : ∀ i s e s' e', R i s e → R i s' e' → ¬ (s = s' ∧ e = e') →
      e < s' ∨ e' < s)
    (H3 : ∀ i s e, i < P → R i s e → (s < e ∧ e ≤ T2) ∧
      runToNote (1 / fs) (p0 + (i : ℤ)) (s, e, w i s) ∈ D) :
    (∀ t p i s e, i < P → R i s e → p = i → s ≤ t → t < e →
      D.foldl (writeNote fs T2 p0 p1 iv) (fun _ _ => 0) t p =
        noteValue iv (runToNote (1 / fs) (p0 + (i : ℤ)) (s, e, w i s))) ∧
    (∀ t p, (¬ ∃ i s e, i < P ∧ R i s e ∧ p = i ∧ s ≤ t ∧ t < e) →
      D.foldl (writeNote fs T2 p0 p1 iv) (fun _ _ => 0) t p = 0) := by
  have hfs' : fs ≠ 0 := ne_of_gt hfs
  have hiP : ∀ i : ℕ, i < P → (i : ℤ) < p1 - p0 := by
    intro i hi
    omega
  constructor
  · intro t p i s e hi hR hp hst hte
    obtain ⟨⟨hse, heT⟩, hmem⟩ := H3 i s e hi hR
    apply foldl_writeNote_eq_of_unique
    · refine ⟨runToNote (1 / fs) (p0 + (i : ℤ)) (s, e, w i s), hmem, ?_, rfl⟩
      rw [covers_runToNote fs hfs' T2 p0 p1 i s e (w i s) (hiP i hi) hse heT]
      exact ⟨hp, hst, hte⟩
    · intro m hm hcov
      obtain ⟨i', s', e', hi', hse', heT', hR', hm'⟩ := H1 m hm
      rw [hm'] at hcov
      rw [covers_runToNote fs hfs' T2 p0 p1 i' s' e' (w i' s') (hiP i' hi') hse' heT']
        at hcov
      obtain ⟨hp', hst', hte'⟩ := hcov
      have hii : i' = i := by omega
      subst hii
      have heq : s = s' ∧ e = e' := by
        by_contra hne
        rcases H2 i' s e s' e' hR hR' hne with hsep | hsep <;> omega
      rw [hm', ← heq.1, ← heq.2]
    · exact noteValue_nonneg_of iv (1 / fs) (p0 + (i : ℤ)) s e (w i s) (Hw i s)
  · intro t p hnc
    apply foldl_writeNote_eq_init
    intro n hn hcov
    obtain ⟨i, s, e, hi, hse, heT, hR, hn'⟩ := H1 n hn
    rw [hn'] at hcov
    rw [covers_runToNote fs hfs' T2 p0 p1 i s e (w i s) (hiP i hi) hse heT] at hcov
    exact hnc ⟨i, s, e, hi, hR, hcov.1, hcov.2.1, hcov.2.2⟩

theorem isMaxRun_all_active (θ : ℚ) (col : ℕ → ℚ) (T : ℕ)
    (h : ∀ t, t < T → θ ≤ col t) (s e : ℕ) :
    isMaxRun θ col T s e ↔ (s = 0 ∧ e = T ∧ 1 ≤ T) := by
  unfold isMaxRun
  constructor
  · rintro ⟨h1, h2, h3, h4, h5⟩
    have hs : s = 0 := by
      rcases h4 with h0 | hc
      · exact h0
      · exact absurd (h (s - 1) (by omega)) (not_le.2 hc)
    have he : e = T := by
      rcases h5 with h0 | hc
      · exact h0
      · by_contra hne
        exact absurd (h e (by omega)) (not_le.2 hc)
    exact ⟨hs, he, by omega⟩
  · rintro ⟨rfl, rfl, hT⟩
    exact ⟨by omega, le_rfl, fun t _ ht => h t ht, Or.inl rfl, Or.inl rfl⟩

/-- Maximal runs of the re-encoded grid are exactly the runs that were
re-encoded, when the threshold is positive: every covered cell carries its
run's note value (which clears the threshold), every uncovered cell is 0. -/
theorem reencoded_maxRun_iff (fs : ℚ) (hfs : 0 < fs) (T2 : ℕ) (p0 p1 : ℤ)
    (iv : Bool) (P : ℕ) (hP : P = (p1 - p0).toNat) (hp01 : p0 < p1)
    (D : List PNote) (R : ℕ → ℕ → ℕ → Prop) (w : ℕ → ℕ → ℚ)
    (Hw : ∀ i s, 0 ≤ w i s)
    (H1 : ∀ n ∈ D, ∃ i s e, i < P ∧ s < e ∧ e ≤ T2 ∧ R i s e ∧
      n = runToNote (1 / fs) (p0 + (i : ℤ)) (s, e, w i s))
    (H2 : ∀ i s e s' e', R i s e → R i s' e' → ¬ (s = s' ∧ e = e') →
      e < s' ∨ e' < s)
    (H3 : ∀ i s e, i < P → R i s e → (s < e ∧ e ≤ T2) ∧
      runToNote (1 / fs) (p0 + (i : ℤ)) (s, e, w i s) ∈ D)
    (θ : ℚ) (hθ : 0 < θ)
    (Hθv : ∀ i s e, i < P → R i s e →
      θ ≤ noteValue iv (runToNote (1 / fs) (p0 + (i : ℤ)) (s, e, w i s)))
    (i : ℕ) (hi : i < P) (s e : ℕ) :
    isMaxRun θ (fun t => D.foldl (writeNote fs T2 p0 p1 iv) (fun _ _ => 0) t i)
      T2 s e ↔ R i s e := by
  obtain ⟨hcov, hunc⟩ :=
    foldl_writeNote_run_val fs hfs T2 p0 p1 iv P hP hp01 D R w Hw H1 H2 H3
  have hactive : ∀ t, θ ≤ D.foldl (writeNote fs T2 p0 p1 iv) (fun _ _ => 0) t i ↔
      ∃ s' e', R i s' e' ∧ s' ≤ t ∧ t < e' := by
    intro t
    constructor
    · intro ha
      by_contra hnc
      rw [hunc t i ?_] at ha
      · exact absurd ha (not_le.2 hθ)
      · rintro ⟨i', s', e', hi', hR', hpi, hst, hte⟩
        exact hnc ⟨s', e', by rw [hpi]; exact ⟨hR', hst, hte⟩⟩
    · rintro ⟨s', e', hR', hst, hte⟩
      rw [hcov t i i s' e' hi hR' rfl hst hte]
      exact Hθv i s' e' hi hR'
  unfold isMaxRun
  constructor
  · rintro ⟨h1, h2, h3, h4, h5⟩
    obtain ⟨s₁, e₁, hR₁, hs₁, he₁⟩ := (hactive s).1 (h3 s le_rfl h1)
    obtain ⟨-, he₁T⟩ := (H3 i s₁ e₁ hi hR₁).1
    have hss : s = s₁ := by
      rcases Nat.eq_or_lt_of_le hs₁ with h | h
      · exact h.symm
      · -- s₁ < s: the cell s-1 would be covered hence active
        exfalso
        have hcov1 : θ ≤ D.foldl (writeNote fs T2 p0 p1 iv) (fun _ _ => 0) (s - 1) i :=
          (hactive (s - 1)).2 ⟨s₁, e₁, hR₁, by omega, by omega⟩
        rcases h4 with h0 | hc
        · omega
        · exact absurd hcov1 (not_le.2 hc)
    have hee : e = e₁ := by
      rcases Nat.lt_trichotomy e e₁ with h | h | h
      · -- e < e₁: the cell e would be covered hence active
        exfalso
        have hcove : θ ≤ D.foldl (writeNote fs T2 p0 p1 iv) (fun _ _ => 0) e i :=
          (hactive e).2 ⟨s₁, e₁, hR₁, by omega, h⟩
        rcases h5 with h0 | hc
        · omega
        · exact absurd hcove (not_le.2 hc)
      · exact h
      · -- e₁ < e: the cell e₁ is active hence covered, contradiction with
        -- separation from (s₁, e₁)
        exfalso
        obtain ⟨s₂, e₂, hR₂, hs₂, he₂⟩ := (hactive e₁).1 (h3 e₁ (by omega) h)
        by_cases heq : s₂ = s₁ ∧ e₂ = e₁
        · omega
        · rcases H2 i s₂ e₂ s₁ e₁ hR₂ hR₁ heq with hsep | hsep <;> omega
    rw [hss, hee]
    exact hR₁
  · intro hR
    obtain ⟨⟨hse, heT⟩, -⟩ := H3 i s e hi hR
    refine ⟨hse, heT, ?_, ?_, ?_⟩
    · intro t hst hte
      exact (hactive t).2 ⟨s, e, hR, hst, hte⟩
    · by_cases hs0 : s = 0
      · exact Or.inl hs0
      · refine Or.inr ?_
        have hnc : ¬ ∃ s' e', R i s' e' ∧ s' ≤ s - 1 ∧ s - 1 < e' := by
          rintro ⟨s', e', hR', hs', he'⟩
          by_cases heq : s = s' ∧ e = e'
          · omega
          · rcases H2 i s e s' e' hR hR' heq with hsep | hsep <;> omega
        have h0 : D.foldl (writeNote fs T2 p0 p1 iv) (fun _ _ => 0) (s - 1) i = 0 := by
          refine hunc (s - 1) i ?_
          rintro ⟨i', s', e', hi', hR', hpi, hst, hte⟩
          exact hnc ⟨s', e', by rw [hpi]; exact ⟨hR', hst, hte⟩⟩
        show D.foldl (writeNote fs T2 p0 p1 iv) (fun _ _ => 0) (s - 1) i < θ
        rw [h0]
        exact hθ
    · by_cases heT2 : e = T2
      · exact Or.inl heT2
      · refine Or.inr ?_
        have hnc : ¬ ∃ s' e', R i s' e' ∧ s' ≤ e ∧ e < e' := by
          rintro ⟨s', e', hR', hs', he'⟩
          by_cases heq : s = s' ∧ e = e'
          · omega
          · rcases H2 i s e s' e' hR hR' heq with hsep | hsep <;> omega
        have h0 : D.foldl (writeNote fs T2 p0 p1 iv) (fun _ _ => 0) e i = 0 := by
          refine hunc e i ?_
          rintro ⟨i', s', e', hi', hR', hpi, hst, hte⟩
          exact hnc ⟨s', e', by rw [hpi]; exact ⟨hR', hst, hte⟩⟩
        show D.foldl (writeNote fs T2 p0 p1 iv) (fun _ _ => 0) e i < θ
        rw [h0]
        exact hθ

/-! ### Claim C6 -/

/-- One decode/encode pass applied to an already decode/encoded grid is the
identity on the grid, provided something survived the first decode: the
surviving notes sit on exact step boundaries with exactly representable
intensities, so re-quantization reproduces the same runs and values. -/
theorem roundtrip_reencode (E D1 : List PNote) (fs : ℚ) (p0 p1 : ℤ)
    (iv : Bool) (θ : ℚ) (d : ℤ) (G1 : Grid) (hfs : 0 < fs) (hp01 : p0 < p1)
    (hG1 : midi_to_pianoroll_tensor E fs (p0, p1) iv = some G1)
    (hD1 : pianoroll_tensor_to_midi G1 fs (p0, p1) θ d = some D1)
    (hD1e : D1 ≠ []) :
    ∃ G2 D2,
      midi_to_pianoroll_tensor D1 fs (p0, p1) iv = some G2 ∧
      pianoroll_tensor_to_midi G2 fs (p0, p1) θ d = some D2 ∧
      midi_to_pianoroll_tensor D2 fs (p0, p1) iv = some G2 := by
  have hfs' : fs ≠ 0 := ne_of_gt hfs
  have hG1P : G1.numPitches = (p1 - p0).toNat := by
    obtain ⟨-, -, hG1eq⟩ := (encode_eq_some_iff E fs (p0, p1) iv G1).1 hG1
    rw [hG1eq]
  set T1 : ℕ := G1.numTimeSteps with hT1def
  have hmem1 : ∀ n, n ∈ D1 ↔ ∃ i, i < (p1 - p0).toNat ∧ ∃ s e,
      isMaxRun θ (colOf G1 i) T1 s e ∧ d ≤ (e : ℤ) - (s : ℤ) ∧
      n = runToNote (1 / fs) (p0 + (i : ℤ)) (s, e, G1.val s i) := by
    intro n
    have h := decode_mem_iff G1 fs (p0, p1) θ d D1 hfs' hD1 n
    rw [hG1P] at h
    exact h
  obtain ⟨n₀, hn₀⟩ := List.exists_mem_of_ne_nil D1 hD1e
  have hpos : 0 < getEndTime D1 := by
    obtain ⟨i₀, hi₀, s₀, e₀, hmr₀, hd₀, hn₀eq⟩ := (hmem1 n₀).1 hn₀
    have hstop₀ : n₀.stop = (e₀ : ℚ) * (1 / fs) := by
      rw [hn₀eq]
      rfl
    have he₀ : 0 < e₀ := lt_of_le_of_lt (Nat.zero_le _) hmr₀.1
    calc (0 : ℚ) < (e₀ : ℚ) * (1 / fs) := by
          refine mul_pos ?_ (by positivity)
          exact_mod_cast he₀
      _ = n₀.stop := hstop₀.symm
      _ ≤ getEndTime D1 := stop_le_getEndTime D1 n₀ hn₀
  obtain ⟨n₁, hn₁, hend₁⟩ : ∃ n ∈ D1, getEndTime D1 = n.stop := by
    rcases getEndTime_zero_or_mem D1 with h0 | h
    · rw [h0] at hpos
      exact absurd hpos (lt_irrefl 0)
    · exact h
  obtain ⟨i₁, hi₁, s₁, e₁, hmr₁, hd₁, hn₁eq⟩ := (hmem1 n₁).1 hn₁
  have hendD1 : getEndTime D1 = (e₁ : ℚ) * (1 / fs) := by
    rw [hend₁, hn₁eq]
    rfl
  have hendfs : getEndTime D1 * fs = (e₁ : ℚ) := by
    rw [hendD1, mul_assoc, one_div_mul_cancel hfs', mul_one]
  have hT2Z : ⌈getEndTime D1 * fs⌉ = (e₁ : ℤ) := by
    rw [hendfs]
    exact Int.ceil_natCast e₁
  set T2 : ℕ := ⌈getEndTime D1 * fs⌉.toNat with hT2def
  have hT2e : T2 = e₁ := by
    rw [hT2def, hT2Z]
    rfl
  set G2 : Grid := ⟨T2, (p1 - p0).toNat,
    D1.foldl (writeNote fs T2 p0 p1 iv) (fun _ _ => 0)⟩ with hG2def
  have hG2 : midi_to_pianoroll_tensor D1 fs (p0, p1) iv = some G2 := by
    rw [encode_eq_some_iff]
    refine ⟨hp01, by rw [hT2Z]; exact Int.natCast_nonneg e₁, ?_⟩
    rw [hG2def, hT2def]
  -- the family of qualifying runs of `G1` and their onset values
  set R : ℕ → ℕ → ℕ → Prop :=
    fun i s e => isMaxRun θ (colOf G1 i) T1 s e ∧ d ≤ (e : ℤ) - (s : ℤ) with hRdef
  set w : ℕ → ℕ → ℚ := fun i s => G1.val s i with hwdef
  have Hw : ∀ i s, 0 ≤ w i s := fun i s => encode_val_nonneg E fs (p0, p1) iv G1 hG1 s i
  have hrunT2 : ∀ i s e, i < (p1 - p0).toNat → R i s e → e ≤ T2 := by
    intro i s e hi hR
    have hmem : runToNote (1 / fs) (p0 + (i : ℤ)) (s, e, w i s) ∈ D1 :=
      (hmem1 _).2 ⟨i, hi, s, e, hR.1, hR.2, rfl⟩
    have hle : (e : ℚ) * (1 / fs) ≤ (e₁ : ℚ) * (1 / fs) := by
      calc (e : ℚ) * (1 / fs)
          = (runToNote (1 / fs) (p0 + (i : ℤ)) (s, e, w i s)).stop := rfl
        _ ≤ getEndTime D1 := stop_le_getEndTime D1 _ hmem
        _ = (e₁ : ℚ) * (1 / fs) := hendD1
    have hq : (e : ℚ) ≤ (e₁ : ℚ) := by
      have hsps : (0 : ℚ) < 1 / fs := by positivity
      exact (mul_le_mul_right hsps).1 hle
    have : e ≤ e₁ := by exact_mod_cast hq
    omega
  have H1 : ∀ n ∈ D1, ∃ i s e, i < (p1 - p0).toNat ∧ s < e ∧ e ≤ T2 ∧ R i s e ∧
      n = runToNote (1 / fs) (p0 + (i : ℤ)) (s, e, w i s) := by
    intro n hn
    obtain ⟨i, hi, s, e, hmr, hd2, hneq⟩ := (hmem1 n).1 hn
    have hR : R i s e := ⟨hmr, hd2⟩
    exact ⟨i, s, e, hi, hmr.1, hrunT2 i s e hi hR, hR, hneq⟩
  have H2 : ∀ i s e s' e', R i s e → R i s' e' → ¬ (s = s' ∧ e = e') →
      e < s' ∨ e' < s := fun i s e s' e' h h' hne =>
    maxRun_separated θ (colOf G1 i) T1 s e s' e' h.1 h'.1 hne
  have H3 : ∀ i s e, i < (p1 - p0).toNat → R i s e → (s < e ∧ e ≤ T2) ∧
      runToNote (1 / fs) (p0 + (i : ℤ)) (s, e, w i s) ∈ D1 := by
    intro i s e hi hR
    exact ⟨⟨hR.1.1, hrunT2 i s e hi hR⟩, (hmem1 _).2 ⟨i, hi, s, e, hR.1, hR.2, rfl⟩⟩
  obtain ⟨hcov, hunc⟩ := foldl_writeNote_run_val fs hfs T2 p0 p1 iv
    (p1 - p0).toNat rfl hp01 D1 R w Hw H1 H2 H3
  have hvexact : ∀ (i s e : ℕ),
      noteValue true (runToNote (1 / fs) (p0 + (i : ℤ)) (s, e, w i s)) = w i s := by
    intro i s e
    show (pyInt (w i s * 127) : ℚ) / 127 = w i s
    exact Q127_pyInt_exact (w i s) (encode_val_Q127 E fs (p0, p1) iv G1 hG1 s i) (Hw i s)
  have Hθv : ∀ i s e, i < (p1 - p0).toNat → R i s e →
      θ ≤ noteValue iv (runToNote (1 / fs) (p0 + (i : ℤ)) (s, e, w i s)) := by
    intro i s e hi hR
    have honset : θ ≤ w i s := hR.1.2.2.1 s le_rfl hR.1.1
    cases iv with
    | false =>
        have hle1 : w i s ≤ 1 := encode_val_le_one E fs (p0, p1) G1 hG1 s i
        show θ ≤ 1
        exact le_trans honset hle1
    | true =>
        rw [hvexact i s e]
        exact honset
  -- maximal runs of the re-encoded grid are exactly the qualifying runs
  have hK : ∀ i, i < (p1 - p0).toNat → ∀ s e,
      isMaxRun θ (colOf G2 i) T2 s e ↔ R i s e := by
    intro i hi s e
    by_cases hθp : 0 < θ
    · exact reencoded_maxRun_iff fs hfs T2 p0 p1 iv (p1 - p0).toNat rfl hp01
        D1 R w Hw H1 H2 H3 θ hθp Hθv i hi s e
    · have hθ0 : θ ≤ 0 := not_lt.1 hθp
      have hact1 : ∀ j t, t < T1 → θ ≤ colOf G1 j t := fun j t _ =>
        le_trans hθ0 (encode_val_nonneg E fs (p0, p1) iv G1 hG1 t j)
      have hact2 : ∀ t, t < T2 → θ ≤ colOf G2 i t := fun t _ =>
        le_trans hθ0 (encode_val_nonneg D1 fs (p0, p1) iv G2 hG2 t i)
      have hR1 : s₁ = 0 ∧ e₁ = T1 ∧ 1 ≤ T1 :=
        (isMaxRun_all_active θ (colOf G1 i₁) T1 (hact1 i₁) s₁ e₁).1 hmr₁
      have hT21 : T2 = T1 := by omega
      rw [isMaxRun_all_active θ (colOf G2 i) T2 hact2 s e]
      constructor
      · rintro ⟨hs0, heT, hT⟩
        have h1 : isMaxRun θ (colOf G1 i) T1 s e :=
          (isMaxRun_all_active θ (colOf G1 i) T1 (hact1 i) s e).2 ⟨hs0, by omega, by omega⟩
        exact ⟨h1, by omega⟩
      · rintro ⟨hmr, hd2⟩
        have h1 := (isMaxRun_all_active θ (colOf G1 i) T1 (hact1 i) s e).1 hmr
        exact ⟨h1.1, by omega, by omega⟩
  -- the second decode
  obtain ⟨D2, hD2⟩ : ∃ D2, pianoroll_tensor_to_midi G2 fs (p0, p1) θ d = some D2 :=
    ⟨_, decode_eq_flush G2 fs (p0, p1) θ d hfs'⟩
  have hmem2 : ∀ n, n ∈ D2 ↔ ∃ i, i < (p1 - p0).toNat ∧ ∃ s e, R i s e ∧
      n = runToNote (1 / fs) (p0 + (i : ℤ)) (s, e, G2.val s i) := by
    intro n
    rw [decode_mem_iff G2 fs (p0, p1) θ d D2 hfs' hD2 n]
    constructor
    · rintro ⟨i, hi, s, e, hmr, hd2, hneq⟩
      exact ⟨i, hi, s, e, (hK i hi s e).1 hmr, hneq⟩
    · rintro ⟨i, hi, s, e, hR, hneq⟩
      exact ⟨i, hi, s, e, (hK i hi s e).2 hR, hR.2, hneq⟩
  have honset2 : ∀ i s e, i < (p1 - p0).toNat → R i s e →
      G2.val s i = noteValue iv (runToNote (1 / fs) (p0 + (i : ℤ)) (s, e, w i s)) := by
    intro i s e hi hR
    exact hcov s i i s e hi hR rfl le_rfl hR.1.1
  -- re-encode once more, with the onset values read off `G2`
  set w2 : ℕ → ℕ → ℚ := fun i s => G2.val s i with hw2def
  have Hw2 : ∀ i s, 0 ≤ w2 i s := fun i s =>
    encode_val_nonneg D1 fs (p0, p1) iv G2 hG2 s i
  have H1' : ∀ n ∈ D2, ∃ i s e, i < (p1 - p0).toNat ∧ s < e ∧ e ≤ T2 ∧ R i s e ∧
      n = runToNote (1 / fs) (p0 + (i : ℤ)) (s, e, w2 i s) := by
    intro n hn
    obtain ⟨i, hi, s, e, hR, hneq⟩ := (hmem2 n).1 hn
    exact ⟨i, s, e, hi, hR.1.1, hrunT2 i s e hi hR, hR, hneq⟩
  have H3' : ∀ i s e, i < (p1 - p0).toNat → R i s e → (s < e ∧ e ≤ T2) ∧
      runToNote (1 / fs) (p0 + (i : ℤ)) (s, e, w2 i s) ∈ D2 := by
    intro i s e hi hR
    exact ⟨⟨hR.1.1, hrunT2 i s e hi hR⟩, (hmem2 _).2 ⟨i, hi, s, e, hR, rfl⟩⟩
  obtain ⟨hcov2, hunc2⟩ := foldl_writeNote_run_val fs hfs T2 p0 p1 iv
    (p1 - p0).toNat rfl hp01 D2 R w2 Hw2 H1' H2 H3'
  have hvv : ∀ i s e, i < (p1 - p0).toNat → R i s e →
      noteValue iv (runToNote (1 / fs) (p0 + (i : ℤ)) (s, e, w2 i s)) =
        noteValue iv (runToNote (1 / fs) (p0 + (i : ℤ)) (s, e, w i s)) := by
    intro i s e hi hR
    cases iv with
    | false => rfl
    | true =>
        have hw2w : w2 i s = w i s := by
          have h00 : w2 i s = G2.val s i := rfl
          rw [h00, honset2 i s e hi hR, hvexact i s e]
        rw [hw2w]
  -- the end time of the twice-decoded list reproduces the same time axis
  have hstop2 : ∀ n ∈ D2, n.stop ≤ (T2 : ℚ) * (1 / fs) := by
    intro n hn
    obtain ⟨i, s, e, hi, hse, heT2, hR, hneq⟩ := H1' n hn
    rw [hneq]
    show (e : ℚ) * (1 / fs) ≤ (T2 : ℚ) * (1 / fs)
    have hq : (e : ℚ) ≤ (T2 : ℚ) := by exact_mod_cast heT2
    exact mul_le_mul_of_nonneg_right hq (by positivity)
  have hT2memD2 : ∃ n ∈ D2, n.stop = (T2 : ℚ) * (1 / fs) := by
    refine ⟨runToNote (1 / fs) (p0 + (i₁ : ℤ)) (s₁, e₁, w2 i₁ s₁), ?_, ?_⟩
    · exact (hmem2 _).2 ⟨i₁, hi₁, s₁, e₁, ⟨hmr₁, hd₁⟩, rfl⟩
    · show (e₁ : ℚ) * (1 / fs) = (T2 : ℚ) * (1 / fs)
      rw [hT2e]
  have hgeD2 : getEndTime D2 = (T2 : ℚ) * (1 / fs) := by
    apply le_antisymm
    · exact (getEndTime_le_iff D2 _).2 ⟨by positivity, hstop2⟩
    · obtain ⟨n, hn, hns⟩ := hT2memD2
      rw [← hns]
      exact stop_le_getEndTime D2 n hn
  have hceilD2 : ⌈getEndTime D2 * fs⌉ = (T2 : ℤ) := by
    rw [hgeD2, mul_assoc, one_div_mul_cancel hfs', mul_one]
    exact Int.ceil_natCast T2
  have hG2' : midi_to_pianoroll_tensor D2 fs (p0, p1) iv = some G2 := by
    rw [encode_eq_some_iff]
    refine ⟨hp01, by rw [hceilD2]; exact Int.natCast_nonneg T2, ?_⟩
    have hT3n : ⌈getEndTime D2 * fs⌉.toNat = T2 := by
      rw [hceilD2]
      rfl
    rw [hT3n]
    have hval : D2.foldl (writeNote fs T2 p0 p1 iv) (fun _ _ => 0) =
        D1.foldl (writeNote fs T2 p0 p1 iv) (fun _ _ => 0) := by
      funext t p
      by_cases hc : ∃ i s e, i < (p1 - p0).toNat ∧ R i s e ∧ p = i ∧ s ≤ t ∧ t < e
      · obtain ⟨i, s, e, hi, hR, hp, hst, hte⟩ := hc
        rw [hcov2 t p i s e hi hR hp hst hte, hcov t p i s e hi hR hp hst hte]
        exact hvv i s e hi hR
      · rw [hunc2 t p hc, hunc t p hc]
    rw [hG2def, ← hval]
  exact ⟨G2, D2, hG2, hD2, hG2'⟩

/-- C6: with identical parameters throughout, decode-then-encode acts as a
projection on grids: starting from `encode E`, one decode/encode pass yields a
grid `G2`, and a second decode/encode pass yields the same grid `G2` again —
`midi_to_pianoroll_tensor` after `pianoroll_tensor_to_midi` is stable under
repetition. (Event times are assumed non-negative, as they are for the notes
of a MIDI file.) -/
theorem C6_roundtrip_idempotent (E : List PNote) (fs : ℚ) (p0 p1 : ℤ)
    (iv : Bool) (θ : ℚ) (d : ℤ) (hfs : 0 < fs) (hp01 : p0 < p1)
    (_hE : ∀ n ∈ E, 0 ≤ n.start ∧ 0 ≤ n.stop) :
    ∃ G1 D1 G2 D2,
      midi_to_pianoroll_tensor E fs (p0, p1) iv = some G1 ∧
      pianoroll_tensor_to_midi G1 fs (p0, p1) θ d = some D1 ∧
      midi_to_pianoroll_tensor D1 fs (p0, p1) iv = some G2 ∧
      pianoroll_tensor_to_midi G2 fs (p0, p1) θ d = some D2 ∧
      midi_to_pianoroll_tensor D2 fs (p0, p1) iv = some G2 := by
  have hfs' : fs ≠ 0 := ne_of_gt hfs
  set T1 : ℕ := ⌈getEndTime E * fs⌉.toNat with hT1def
  set G1 : Grid := ⟨T1, (p1 - p0).toNat,
    E.foldl (writeNote fs T1 p0 p1 iv) (fun _ _ => 0)⟩ with hG1def
  have hG1 : midi_to_pianoroll_tensor E fs (p0, p1) iv = some G1 := by
    rw [encode_eq_some_iff]
    refine ⟨hp01, Int.ceil_nonneg (mul_nonneg (getEndTime_nonneg E) (le_of_lt hfs)), ?_⟩
    rw [hG1def, hT1def]
  obtain ⟨D1, hD1⟩ : ∃ D1, pianoroll_tensor_to_midi G1 fs (p0, p1) θ d = some D1 :=
    ⟨_, decode_eq_flush G1 fs (p0, p1) θ d hfs'⟩
  by_cases hD1e : D1 = []
  · -- nothing survived decoding: the re-encoded grid is empty and fixed
    subst hD1e
    set G2 : Grid := ⟨0, (p1 - p0).toNat, fun _ _ => 0⟩ with hG2def
    have hend0 : getEndTime ([] : List PNote) * fs = 0 := by
      show (0 : ℚ) * fs = 0
      rw [zero_mul]
    have hceil0 : ⌈getEndTime ([] : List PNote) * fs⌉ = 0 := by
      rw [hend0]
      exact Int.ceil_zero
    have hG2 : midi_to_pianoroll_tensor [] fs (p0, p1) iv = some G2 := by
      rw [encode_eq_some_iff]
      refine ⟨hp01, by rw [hceil0], ?_⟩
      rw [hG2def]
      have h00 : ⌈getEndTime ([] : List PNote) * fs⌉.toNat = 0 := by
        rw [hceil0]
        rfl
      rw [h00]
      rfl
    have hD2 : pianoroll_tensor_to_midi G2 fs (p0, p1) θ d = some [] := by
      rw [decode_eq_flush G2 fs (p0, p1) θ d hfs']
      rfl
    exact ⟨G1, [], G2, [], hG1, hD1, hG2, hD2, hG2⟩
  · obtain ⟨G2, D2, h1, h2, h3⟩ :=
      roundtrip_reencode E D1 fs p0 p1 iv θ d G1 hfs hp01 hG1 hD1 hD1e
    exact ⟨G1, D1, G2, D2, hG1, hD1, h1, h2, h3⟩

/-- Witness for C6: the round-trip stabilizes for a concrete one-note list at
sample rate 4, pitch range [60, 62), velocity mode, threshold 1/2, minimum
duration 1. -/
theorem C6_roundtrip_idempotent_witness :
    (0 : ℚ) < 4 ∧ (60 : ℤ) < 62 ∧
      (∀ n ∈ [PNote.mk 100 60 0 1], 0 ≤ n.start ∧ 0 ≤ n.stop) ∧
      (∃ G1 D1 G2 D2,
        midi_to_pianoroll_tensor [PNote.mk 100 60 0 1] 4 (60, 62) true = some G1 ∧
        pianoroll_tensor_to_midi G1 4 (60, 62) (1 / 2) 1 = some D1 ∧
        midi_to_pianoroll_tensor D1 4 (60, 62) true = some G2 ∧
        pianoroll_tensor_to_midi G2 4 (60, 62) (1 / 2) 1 = some D2 ∧
        midi_to_pianoroll_tensor D2 4 (60, 62) true = some G2) :=
  ⟨by norm_num, by decide, by with_unfolding_all decide,
    C6_roundtrip_idempotent [PNote.mk 100 60 0 1] 4 60 62 true (1 / 2) 1
      (by norm_num) (by decide) (by with_unfolding_all decide)⟩
